import Mathlib

/-!
Verification of the DeepSlate response-processing core.

This file gives a shallow embedding, in Lean, of the three source functions the
claims are about, and proves or refutes the claims against it:

* `extractJson` (src/types.ts, lines 256-329): the resilient JSON extractor.
  JavaScript strings are modelled as `List Char`; `JSON.parse` is modelled by
  the recursive-descent parser `jsonParse` below (fuel-indexed, structurally
  recursive, total); a thrown-and-caught parse error is `none`.  JSON numbers
  are kept as their raw lexed token (the claims never compare numerically
  distinct spellings of the same number, so IEEE-754 number semantics are not
  needed).
* `handleGraphNodeClick` (src/types.ts, lines 1282-1323): the step-correlation
  resolver.  The React state update `setFocusedStepIndex i` is modelled by the
  return value `some i`, and `setFocusedStepIndex null` by `none`.
* the level-assignment block of `ConceptGraph`
  (src/components/StepAnalysis.tsx, lines 478-515).  JavaScript
  `Record<string, T>` objects are modelled as association lists with
  update-or-append assignment (`setA`/`getA`); an uncaught `TypeError`
  (e.g. `adj[l.source].push` when `adj[l.source]` is `undefined`) is modelled
  by the whole computation returning `none`.  The `while` loop is run on
  explicit fuel `2*|nodes| + |edges| + 1`; every pop removes one queue entry
  and entries are only ever created by the initial seeding (at most `|nodes|`)
  and by visiting a not-yet-visited adjacency key (at most one push per edge),
  so the fuel bound strictly exceeds the number of loop iterations the
  JavaScript loop can perform and the fuel case is never the reason for a
  `none` result in any theorem below.
-/

/-! ## Character classes -/

/-- The whitespace class used by the JavaScript regexes (`\s`) and by
`String.prototype.trim` in `extractJson`, restricted to the ASCII range
(the inputs of interest are ASCII). -/
def isJsWs (c : Char) : Bool :=
  c == ' ' || c == '\t' || c == '\n' || c == '\r' || c == '\x0b' || c == '\x0c'

/-- Whitespace accepted between tokens by `JSON.parse` (ECMA-404). -/
def isJsonWs (c : Char) : Bool :=
  c == ' ' || c == '\t' || c == '\n' || c == '\r'

/-- The backtick character (written by code point to keep it out of the
source text of this file). -/
def btick : Char := Char.ofNat 96

/-- Hexadecimal digit, as accepted in a `\uHHHH` escape. -/
def isHexDig (c : Char) : Bool :=
  c.isDigit || ('a' ≤ c && c ≤ 'f') || ('A' ≤ c && c ≤ 'F')

/-! ## JavaScript string helpers used by `extractJson` -/

/-- `leadsWith p l` is true when `p` is a literal prefix of `l`
(the regex-literal part of `/```json\s*/` matching at the current position). -/
def leadsWith : List Char → List Char → Bool
  | [], _ => true
  | _ :: _, [] => false
  | p :: ps, c :: cs => p == c && leadsWith ps cs

/-- One global-replace pass of `str.replace(/PAT\s*/g, '')` where `PAT` is the
literal `pat`: scan left to right, and at each position either remove a match
of `pat` followed by greedy whitespace (resuming after the removed span,
exactly as a JavaScript global regex replace does) or keep the character.
Structural recursion on fuel; the wrappers pass `l.length`, which suffices
because every step consumes at least one character. -/
def stripFenceAux (pat : List Char) : Nat → List Char → List Char
  | 0, l => l
  | _ + 1, [] => []
  | fuel + 1, c :: cs =>
    if leadsWith pat (c :: cs) then
      stripFenceAux pat fuel ((List.drop pat.length (c :: cs)).dropWhile isJsWs)
    else
      c :: stripFenceAux pat fuel cs

/-- The literal part of the first fence-stripping regex, ```` ```json ````. -/
def fenceJsonChars : List Char := "```json".toList

/-- The literal part of the second fence-stripping regex, ```` ``` ````. -/
def fenceChars : List Char := "```".toList

/-- `text.replace(/```json\s*/g, '')`. -/
def stripJsonFence (l : List Char) : List Char := stripFenceAux fenceJsonChars l.length l

/-- `.replace(/```\s*/g, '')`. -/
def stripFence (l : List Char) : List Char := stripFenceAux fenceChars l.length l

/-- `String.prototype.trim`. -/
def jsTrim (l : List Char) : List Char :=
  ((l.dropWhile isJsWs).reverse.dropWhile isJsWs).reverse

/-! ## The JSON value model and the model of `JSON.parse` -/

/-- JSON values as recovered by `JSON.parse`.  String payloads are kept in
their raw (still-escaped) source spelling and numbers as their raw lexed
token; the claims only ever compare values recovered from equal or
textually-related inputs, where this syntactic representation coincides with
value equality. -/
inductive Json where
  | null : Json
  | bool (b : Bool) : Json
  | num (tok : List Char) : Json
  | str (s : List Char) : Json
  | arr (elems : List Json) : Json
  | obj (fields : List (List Char × Json)) : Json

/-- Skip JSON inter-token whitespace. -/
def skipWs (l : List Char) : List Char := l.dropWhile isJsonWs

/-- Lex a JSON string body (the opening quote has been consumed): returns the
raw body and the rest after the closing quote.  Escape sequences must be one
of `\" \\ \/ \b \f \n \r \t \uHHHH`; unescaped control characters are
rejected, as by `JSON.parse`. -/
def lexString : List Char → Option (List Char × List Char)
  | [] => none
  | c :: cs =>
    if c == '"' then some ([], cs)
    else if c == '\\' then
      match cs with
      | [] => none
      | e :: cs' =>
        if e == '"' || e == '\\' || e == '/' || e == 'b' || e == 'f' || e == 'n'
            || e == 'r' || e == 't' then
          match lexString cs' with
          | some (s, r) => some ('\\' :: e :: s, r)
          | none => none
        else if e == 'u' then
          match cs' with
          | h1 :: h2 :: h3 :: h4 :: cs'' =>
            if isHexDig h1 && isHexDig h2 && isHexDig h3 && isHexDig h4 then
              match lexString cs'' with
              | some (s, r) => some ('\\' :: 'u' :: h1 :: h2 :: h3 :: h4 :: s, r)
              | none => none
            else none
          | _ => none
        else none
    else if c.toNat < 32 then none
    else
      match lexString cs with
      | some (s, r) => some (c :: s, r)
      | none => none

/-- Lex a JSON number token `-?(0|[1-9][0-9]*)(\.[0-9]+)?([eE][+-]?[0-9]+)?`,
returning the raw token and the rest. -/
def lexNumber (l : List Char) : Option (List Char × List Char) :=
  let (sign, l1) : List Char × List Char :=
    match l with
    | '-' :: t => (['-'], t)
    | _ => ([], l)
  match l1 with
  | [] => none
  | d :: t =>
    if d == '0' then
      lexNumFrac (sign ++ ['0']) t
    else if d.isDigit then
      lexNumFrac (sign ++ d :: t.takeWhile Char.isDigit) (t.dropWhile Char.isDigit)
    else none
where
  lexNumFrac (acc : List Char) (l : List Char) : Option (List Char × List Char) :=
    match l with
    | '.' :: t =>
      match t.takeWhile Char.isDigit with
      | [] => none
      | ds => lexNumExp (acc ++ '.' :: ds) (t.dropWhile Char.isDigit)
    | _ => lexNumExp acc l
  lexNumExp (acc : List Char) (l : List Char) : Option (List Char × List Char) :=
    match l with
    | e :: t =>
      if e == 'e' || e == 'E' then
        let (es, t1) : List Char × List Char :=
          match t with
          | '+' :: t' => (['+'], t')
          | '-' :: t' => (['-'], t')
          | _ => ([], t)
        match t1.takeWhile Char.isDigit with
        | [] => none
        | ds => some (acc ++ e :: es ++ ds, t1.dropWhile Char.isDigit)
      else some (acc, e :: t)
    | [] => some (acc, [])

mutual

/-- Recursive-descent model of `JSON.parse`, value production.  The fuel is
structural; `jsonParse` passes `length + 1`, which is sufficient because each
unit of fuel spent is preceded by at least one consumed character. -/
def parseVal : Nat → List Char → Option (Json × List Char)
  | 0, _ => none
  | fuel + 1, l =>
    match skipWs l with
    | [] => none
    | c :: cs =>
      if c == '{' then
        match skipWs cs with
        | '}' :: r => some (Json.obj [], r)
        | r => parseMembers fuel r
      else if c == '[' then
        match skipWs cs with
        | ']' :: r => some (Json.arr [], r)
        | r => parseElems fuel r
      else if c == '"' then
        match lexString cs with
        | some (s, r) => some (Json.str s, r)
        | none => none
      else if c == 't' then
        match cs with
        | 'r' :: 'u' :: 'e' :: r => some (Json.bool true, r)
        | _ => none
      else if c == 'f' then
        match cs with
        | 'a' :: 'l' :: 's' :: 'e' :: r => some (Json.bool false, r)
        | _ => none
      else if c == 'n' then
        match cs with
        | 'u' :: 'l' :: 'l' :: r => some (Json.null, r)
        | _ => none
      else if c == '-' || c.isDigit then
        match lexNumber (c :: cs) with
        | some (tok, r) => some (Json.num tok, r)
        | none => none
      else none

/-- Object members, positioned at the (whitespace-skipped) start of a key. -/
def parseMembers : Nat → List Char → Option (Json × List Char)
  | 0, _ => none
  | fuel + 1, l =>
    match l with
    | '"' :: cs =>
      match lexString cs with
      | some (k, r1) =>
        match skipWs r1 with
        | ':' :: r2 =>
          match parseVal fuel r2 with
          | some (v, r3) =>
            match skipWs r3 with
            | ',' :: r4 =>
              (match parseMembers fuel (skipWs r4) with
               | some (Json.obj fs, r5) => some (Json.obj ((k, v) :: fs), r5)
               | _ => none)
            | '}' :: r4 => some (Json.obj [(k, v)], r4)
            | _ => none
          | none => none
        | _ => none
      | none => none
    | _ => none

/-- Array elements, positioned at the (whitespace-skipped) start of a value. -/
def parseElems : Nat → List Char → Option (Json × List Char)
  | 0, _ => none
  | fuel + 1, l =>
    match parseVal fuel l with
    | some (v, r1) =>
      match skipWs r1 with
      | ',' :: r2 =>
        (match parseElems fuel r2 with
         | some (Json.arr xs, r3) => some (Json.arr (v :: xs), r3)
         | _ => none)
      | ']' :: r2 => some (Json.arr [v], r2)
      | _ => none
    | none => none

end

/-- Model of `JSON.parse(text)` under `try`/`catch`: `none` means the parse
threw.  Trailing non-whitespace is rejected, as by `JSON.parse`. -/
def jsonParse (l : List Char) : Option Json :=
  match parseVal (l.length + 1) l with
  | some (v, r) => if (skipWs r).isEmpty then some v else none
  | none => none

/-! ## The extractor `extractJson` (src/types.ts, lines 256-329) -/

/-- The string-aware brace scan of `extractJson` step 4, from
`for (let i = startIndex; ...)` down to the `braceCount === 0` early exit:
`i` is the absolute index of the next character, `inS`/`esc` the
`inString`/`escaped` flags, `d` the running `braceCount`.  Returns the
absolute index at which the count returns to zero, if any. -/
def scanCloseAux : List Char → Nat → Bool → Bool → Int → Option Nat
  | [], _, _, _, _ => none
  | c :: cs, i, inS, esc, d =>
    if inS then
      if esc then scanCloseAux cs (i + 1) true false d
      else if c == '\\' then scanCloseAux cs (i + 1) true true d
      else if c == '"' then scanCloseAux cs (i + 1) false esc d
      else scanCloseAux cs (i + 1) true esc d
    else
      if c == '{' then scanCloseAux cs (i + 1) false esc (d + 1)
      else if c == '}' then
        if d - 1 == 0 then some i else scanCloseAux cs (i + 1) false esc (d - 1)
      else if c == '"' then scanCloseAux cs (i + 1) true esc d
      else scanCloseAux cs (i + 1) false esc d

/-- The brace scan started at `start` (the code's `startIndex`). -/
def scanClose (l : List Char) (start : Nat) : Option Nat :=
  scanCloseAux (l.drop start) start false false 0

/-- Step 4 of `extractJson`: locate the first `{`, run the string-aware scan,
and cut out `cleanText.substring(startIndex, endIndex + 1)`. -/
def braceCandidate (l : List Char) : Option (List Char) :=
  match l.findIdx? (fun c => c == '{') with
  | none => none
  | some s =>
    match scanClose l s with
    | some e => some ((l.drop s).take (e + 1 - s))
    | none => none

/-- Step 5 of `extractJson`: the greedy regex `cleanText.match(/\{[\s\S]*\}/)`.
Its match, when any, runs from the first `{` to the last `}` of the text
(leftmost match start, greedy extent). -/
def regexCandidate (l : List Char) : Option (List Char) :=
  match l.findIdx? (fun c => c == '{'), l.reverse.findIdx? (fun c => c == '}') with
  | some p, some rq =>
    let q := l.length - 1 - rq
    if p < q then some ((l.drop p).take (q + 1 - p)) else none
  | _, _ => none

/-- Step 2 of `extractJson`:
`text.replace(/```json\s*/g, '').replace(/```\s*/g, '').trim()`. -/
def cleanOf (l : List Char) : List Char := jsTrim (stripFence (stripJsonFence l))

/-- The extractor `extractJson` (src/types.ts, lines 256-329): strict parse,
fence-stripped parse, string-aware brace extraction, then greedy-regex
extraction; `none` models the function's `null` returns. -/
def extractJson (text : List Char) : Option Json :=
  match jsonParse text with
  | some v => some v
  | none =>
    match jsonParse (cleanOf text) with
    | some v => some v
    | none =>
      match (cleanOf text).findIdx? (fun c => c == '{') with
      | none => none
      | some _ =>
        match braceCandidate (cleanOf text) with
        | some cand =>
          (match jsonParse cand with
           | some v => some v
           | none =>
             match regexCandidate (cleanOf text) with
             | some m => jsonParse m
             | none => none)
        | none =>
          match regexCandidate (cleanOf text) with
          | some m => jsonParse m
          | none => none

/-! ## The step-correlation resolver `handleGraphNodeClick`
(src/types.ts, lines 1282-1323) -/

/-- `str.match(/\d+/)`: the first maximal run of decimal digits. -/
def digitRun (l : List Char) : List Char :=
  (l.dropWhile (fun c => !c.isDigit)).takeWhile Char.isDigit

/-- Numeric value of a digit run (`parseInt(match[0], 10)`). -/
def digitsToNat (l : List Char) : Nat :=
  l.foldl (fun a c => a * 10 + (c.toNat - '0'.toNat)) 0

/-- `s.any isDigit`: whether the id contains any digit at all. -/
def hasDigit (l : List Char) : Bool := l.any Char.isDigit

/-- The helper `getNum` of `handleGraphNodeClick`: numeric value of the first
digit run, or the sentinel `-1` when the string contains no digit. -/
def getNum (l : List Char) : Int :=
  if (digitRun l).isEmpty then -1 else (digitsToNat (digitRun l) : Int)

/-- The matching rules of `handleGraphNodeClick`, given the selected node's id
and the list of `step_id` strings of `student_analysis`, in source order:
(1) first step whose `getNum` equals the node id's `getNum`
(`findIndex`, first hit wins); (2) first exact `step_id` match; (3) the node
id's number as a 1-based position when in range.  `some i` models
`setFocusedStepIndex(i)` and `none` models `setFocusedStepIndex(null)`. -/
def resolveStep (nodeId : List Char) (steps : List (List Char)) : Option Nat :=
  let nodeIdNum := getNum nodeId
  match steps.findIdx? (fun s => getNum s == nodeIdNum) with
  | some i => some i
  | none =>
    match steps.findIdx? (fun s => s == nodeId) with
    | some i => some i
    | none =>
      if 0 < nodeIdNum && nodeIdNum ≤ (steps.length : Int) then
        some (nodeIdNum - 1).toNat
      else none

/-- `handleGraphNodeClick` including its leading guard: a missing or empty
(JavaScript-falsy) node id clears the highlight without consulting the
rules.  The `student_analysis` list is taken as given (its absence also just
clears the highlight in the source). -/
def handleGraphNodeClick (nodeId : List Char) (steps : List (List Char)) : Option Nat :=
  if nodeId.isEmpty then none else resolveStep nodeId steps

/-! ## The level assignment of `ConceptGraph`
(src/components/StepAnalysis.tsx, lines 478-515) -/

/-- Association-list read, modelling `obj[key]` on a plain JavaScript
record (`none` is `undefined`). -/
def getA {β : Type} : List (String × β) → String → Option β
  | [], _ => none
  | (k', v) :: t, k => if k' == k then some v else getA t k

/-- Association-list write, modelling `obj[key] = v`: update in place if the
key exists, otherwise append. -/
def setA {β : Type} : List (String × β) → String → β → List (String × β)
  | [], k, v => [(k, v)]
  | (k', v') :: t, k, v =>
    if k' == k then (k', v) :: t else (k', v') :: setA t k v

/-- `nodes.forEach(n => { incomingCount[n.id] = 0; })`. -/
def incInit (nodes : List String) : List (String × Nat) :=
  nodes.foldl (fun m n => setA m n 0) []

/-- `nodes.forEach(n => { adj[n.id] = []; })`. -/
def adjInit (nodes : List String) : List (String × List String) :=
  nodes.foldl (fun m n => setA m n []) []

/-- `links.forEach(l => { incomingCount[l.target] = (incomingCount[l.target] || 0) + 1; })`. -/
def buildInc : List (String × Nat) → List (String × String) → List (String × Nat)
  | m, [] => m
  | m, (_, t) :: es => buildInc (setA m t ((getA m t).getD 0 + 1)) es

/-- `links.forEach(l => { adj[l.source].push(l.target); })`: reading
`adj[l.source]` on a source that is not a node id yields `undefined`, and
`.push` on it throws a `TypeError` — modelled by `none`. -/
def buildAdj : List (String × List String) → List (String × String) →
    Option (List (String × List String))
  | m, [] => some m
  | m, (s, t) :: es =>
    match getA m s with
    | none => none
    | some ch => buildAdj (setA m s (ch ++ [t])) es

/-- The breadth-first level loop (`while (queue.length > 0) ...`): pop, skip
if visited, else mark visited, record the level, and push all adjacency
successors at `depth + 1`.  `adj[id].forEach` on an id without an adjacency
entry throws — modelled by `none`.  Fuel is structural; see the header
comment for why the fuel passed by `computeLevels` exceeds every possible
iteration count. -/
def bfsF : Nat → List (String × List String) → List (String × Nat) → List String →
    List (String × Nat) → Option (List (String × Nat))
  | _, _, [], _, levels => some levels
  | 0, _, _ :: _, _, _ => none
  | fuel + 1, adj, (id, d) :: rest, visited, levels =>
    if visited.contains id then bfsF fuel adj rest visited levels
    else
      match getA adj id with
      | none => none
      | some ch =>
        bfsF fuel adj (rest ++ ch.map (fun c => (c, d + 1))) (id :: visited)
          (setA levels id d)

/-- `nodes.filter(n => incomingCount[n.id] === 0)`: the zero-in-degree seeds
(every node id has an `incomingCount` entry from the initialisation pass). -/
def seedsOf (nodes : List String) (inc : List (String × Nat)) : List String :=
  nodes.filter (fun n => (getA inc n).getD 0 == 0)

/-- Queue seeding: all zero-in-degree nodes at depth 0, or the first node as
the `// Fallback for loops` when there is none. -/
def initQueue (nodes seeds : List String) : List (String × Nat) :=
  if seeds.isEmpty then
    match nodes with
    | [] => []
    | n :: _ => [(n, 0)]
  else seeds.map (fun n => (n, 0))

/-- Fuel for `bfsF`; strictly more than the number of queue entries the
JavaScript loop can ever create (at most `|nodes|` seeds plus one push per
edge). -/
def levelFuel (nodes : List String) (edges : List (String × String)) : Nat :=
  2 * nodes.length + edges.length + 1

/-- The whole `// Simple Leveling Logic for DAG` block: the `levels` record
produced by the breadth-first pass, or `none` if the block throws. -/
def computeLevels (nodes : List String) (edges : List (String × String)) :
    Option (List (String × Nat)) :=
  match buildAdj (adjInit nodes) edges with
  | none => none
  | some adj =>
    bfsF (levelFuel nodes edges) adj
      (initQueue nodes (seedsOf nodes (buildInc (incInit nodes) edges))) [] []

/-- `nodes.forEach(n => { n.level = levels[n.id] || 0; })`: the final
per-node level in node order, unreachable nodes defaulting to 0. -/
def nodeLevels (nodes : List String) (edges : List (String × String)) :
    Option (List (String × Nat)) :=
  (computeLevels nodes edges).map (fun L => nodes.map (fun n => (n, (getA L n).getD 0)))

/-- The edge list of the single cycle through the given nodes in order:
`cycleEdges [a, b, c] = [(a, b), (b, c), (c, a)]`.  This is the generic
shape of a graph in which every node has in-degree exactly 1 and the edges
form one closed walk. -/
def cycleChain (first : String) : String → List String → List (String × String)
  | cur, [] => [(cur, first)]
  | cur, y :: ys => (cur, y) :: cycleChain first y ys

/-- See `cycleChain`. -/
def cycleEdges : List String → List (String × String)
  | [] => []
  | x :: xs => cycleChain x x xs

/-! ## A serializer, used to quantify over well-formed JSON object texts in
the brace-scan claim -/

/-- JSON string-character escaping (quote and backslash). -/
def escapeChar (c : Char) : List Char :=
  if c == '"' || c == '\\' then ['\\', c] else [c]

/-- Body of a serialized JSON string literal (content with escapes applied). -/
def strBody (s : List Char) : List Char :=
  s.foldr (fun c acc => escapeChar c ++ acc) []

/-- Serialize a JSON string literal. -/
def serializeStr (s : List Char) : List Char :=
  '"' :: strBody s ++ ['"']

/-- Comma-join a list of fragments. -/
def joinComma : List (List Char) → List Char
  | [] => []
  | [x] => x
  | x :: y :: t => x ++ ',' :: joinComma (y :: t)

/-- Canonical text of a JSON value (no inter-token whitespace); `serialize v`
ranges over the well-formed JSON texts the brace-scan claim quantifies
over. -/
def serialize : Json → List Char
  | .num tok => tok
  | .str s => serializeStr s
  | .bool b => if b then "true".toList else "false".toList
  | .null => "null".toList
  | .arr xs => '[' :: (joinComma (xs.attach.map (fun x => serialize x.1))) ++ [']']
  | .obj fs =>
    '{' :: (joinComma
      (fs.attach.map (fun kv => serializeStr kv.1.1 ++ ':' :: serialize kv.1.2))) ++ ['}']
decreasing_by
  · have h := List.sizeOf_lt_of_mem x.2
    simp only [Json.arr.sizeOf_spec]
    omega
  · have h := List.sizeOf_lt_of_mem kv.2
    obtain ⟨⟨k, v⟩, hm⟩ := kv
    simp only [Json.obj.sizeOf_spec]
    simp only [Prod.mk.sizeOf_spec] at h ⊢
    omega

/-- Characters a JSON number token may consist of. -/
def numOk (tok : List Char) : Bool :=
  !tok.isEmpty &&
    tok.all (fun c => c.isDigit || c == '-' || c == '+' || c == '.' || c == 'e' || c == 'E')

/-- Well-formedness of a `Json` value as a source of serialized text: number
tokens consist of number-grammar characters (so that the free-form `num`
constructor cannot smuggle braces or quotes into the serialized text). -/
def wfJson : Json → Bool
  | .null => true
  | .bool _ => true
  | .num tok => numOk tok
  | .str _ => true
  | .arr xs => xs.attach.all (fun x => wfJson x.1)
  | .obj fs => fs.attach.all (fun kv => wfJson kv.1.2)
decreasing_by
  · have h := List.sizeOf_lt_of_mem x.2
    simp only [Json.arr.sizeOf_spec]
    omega
  · have h := List.sizeOf_lt_of_mem kv.2
    obtain ⟨⟨k, v⟩, hm⟩ := kv
    simp only [Json.obj.sizeOf_spec]
    simp only [Prod.mk.sizeOf_spec] at h ⊢
    omega

/-- The brace scan as a state transformer over a fragment of text:
`.inl k` means the scan stopped (found the closing brace) at absolute index
`k`; `.inr (inS, esc, d)` means it consumed the whole fragment ending in the
given state.  Mirrors `scanCloseAux` step for step. -/
def scanFragAux : List Char → Nat → Bool → Bool → Int → Sum Nat (Bool × Bool × Int)
  | [], _, inS, esc, d => .inr (inS, esc, d)
  | c :: cs, i, inS, esc, d =>
    if inS then
      if esc then scanFragAux cs (i + 1) true false d
      else if c == '\\' then scanFragAux cs (i + 1) true true d
      else if c == '"' then scanFragAux cs (i + 1) false esc d
      else scanFragAux cs (i + 1) true esc d
    else
      if c == '{' then scanFragAux cs (i + 1) false esc (d + 1)
      else if c == '}' then
        if d - 1 == 0 then .inl i else scanFragAux cs (i + 1) false esc (d - 1)
      else if c == '"' then scanFragAux cs (i + 1) true esc d
      else scanFragAux cs (i + 1) false esc d

/-! ## Bookkeeping used only inside proofs -/

/-- Keys of an association list. -/
def keysOf {β : Type} (m : List (String × β)) : List String := m.map Prod.fst

/-- Cost charged to one not-yet-visited adjacency key: the pop that visits it
plus one pop per successor it pushes. -/
def chW (adj : List (String × List String)) (k : String) : Nat :=
  1 + ((getA adj k).getD []).length

/-- Potential of a breadth-first state: pops still owed by the current queue
plus the cost of every adjacency key not yet visited.  Every loop iteration
strictly decreases it, so it bounds the remaining iteration count. -/
def levelPhi (adj : List (String × List String)) (queue : List (String × Nat))
    (visited : List String) : Nat :=
  queue.length + ∑ k ∈ (keysOf adj).toFinset \ visited.toFinset, chW adj k

/-- `enumFrom i [a, b, c] = [(a, i), (b, i+1), (c, i+2)]`: the level record
produced by walking a path, in visit order. -/
def enumFrom (i : Nat) : List String → List (String × Nat)
  | [] => []
  | x :: xs => (x, i) :: enumFrom (i + 1) xs

/-! ## Concrete inputs used by the counterexamples -/

/-- A valid JSON object text, `{"x":true}`. -/
def exC1json : List Char := ['{', '"', 'x', '"', ':', 't', 'r', 'u', 'e', '}']

/-- `exC1json` surrounded by prose, where the prose itself contains a stray
opening brace: `note { see {"x":true} end`. -/
def exC1text : List Char :=
  "note ".toList ++ '{' :: " see ".toList ++ exC1json ++ " end".toList

/-- A valid JSON object text whose string value contains a triple backtick:
`{"a":"```"}`. -/
def exC10json : List Char :=
  ['{', '"', 'a', '"', ':', '"'] ++ [btick, btick, btick] ++ ['"', '}']

/-- `exC10json` after a short prose prefix. -/
def exC10text : List Char := "Result: ".toList ++ exC10json

/-- A JSON text wrapped in the markdown fence the extractor is built to
strip: ```` ```json\n<text>\n``` ````. -/
def fenceWrap (j : List Char) : List Char :=
  fenceJsonChars ++ '\n' :: j ++ '\n' :: fenceChars

/-! # Helper lemmas -/

/-! ## Digit extraction (`getNum`) -/

theorem digitRun_nil_of_no_digit {l : List Char} (h : hasDigit l = false) :
    digitRun l = [] := by
  unfold digitRun
  have hall : l.dropWhile (fun c => !c.isDigit) = [] := by
    rw [List.dropWhile_eq_nil_iff]
    intro x hx
    simp only [hasDigit, List.any_eq_false] at h
    simp [h x hx]
  rw [hall]
  rfl

theorem digitRun_ne_nil_of_digit {l : List Char} (h : hasDigit l = true) :
    digitRun l ≠ [] := by
  induction l with
  | nil => simp [hasDigit] at h
  | cons c t ih =>
    by_cases hc : c.isDigit
    · unfold digitRun
      rw [List.dropWhile_cons, if_neg (by simp [hc])]
      simp [List.takeWhile_cons, hc]
    · have ht : hasDigit t = true := by
        simp only [hasDigit, List.any_cons] at h ⊢
        simpa [hc] using h
      have hstep : digitRun (c :: t) = digitRun t := by
        unfold digitRun
        rw [List.dropWhile_cons, if_pos (by simp [hc])]
      rw [hstep]
      exact ih ht

theorem getNum_eq_neg_one {l : List Char} (h : hasDigit l = false) : getNum l = -1 := by
  unfold getNum
  rw [digitRun_nil_of_no_digit h]
  rfl

theorem getNum_nonneg {l : List Char} (h : hasDigit l = true) : 0 ≤ getNum l := by
  unfold getNum
  have hne := digitRun_ne_nil_of_digit h
  rw [if_neg (by simpa [List.isEmpty_iff] using hne)]
  exact Int.natCast_nonneg _

/-! # Claims about the step-correlation resolver -/

/-- **C2, counterexample.**  The claim states that for node id `"step3"` and a
step list containing `step_id = "step3"` at position 2, the resolver selects
index 2 by the exact-match rule even when a different step has a coinciding
extracted number.  On the code this is false: with steps
`["S3", "b", "step3"]` the first rule (`findIndex` on equal extracted
numbers, with no uniqueness check) already fires on `"S3"` (number 3) and the
resolver selects index 0, never reaching the exact-match rule. -/
theorem claim_C2_counterexample :
    handleGraphNodeClick "step3".toList ["S3".toList, "b".toList, "step3".toList] = some 0 ∧
    handleGraphNodeClick "step3".toList ["S3".toList, "b".toList, "step3".toList] ≠ some 2 := by
  constructor
  · rfl
  · intro h
    have h0 : handleGraphNodeClick "step3".toList
        ["S3".toList, "b".toList, "step3".toList] = some 0 := rfl
    rw [h0] at h
    simp at h

/-- **C2, amended.**  The resolver's first rule matches the *first* step (in
list order) whose extracted number equals the node id's extracted number,
with no uniqueness requirement; the exact-string rule is only consulted when
no step matches numerically.  Consequently, for node id `"step3"` and a step
list with `step_id = "step3"` at some position, that position is selected
precisely when no earlier step has extracted number 3 — and then it is
selected by the numeric rule, not by the exact-match rule. -/
theorem claim_C2_amended (pre post : List (List Char))
    (h : ∀ s ∈ pre, getNum s ≠ 3) :
    handleGraphNodeClick "step3".toList (pre ++ "step3".toList :: post) = some pre.length := by
  have h3 : getNum "step3".toList = 3 := by decide
  have hq : (pre ++ "step3".toList :: post).findIdx?
      (fun s => getNum s == getNum "step3".toList) = some pre.length := by
    rw [List.findIdx?_append]
    have h1 : pre.findIdx? (fun s => getNum s == getNum "step3".toList) = none := by
      rw [List.findIdx?_eq_none_iff]
      intro x hx
      simp only [h3, beq_eq_false_iff_ne, ne_eq]
      exact h x hx
    have h2 : (("step3".toList : List Char) :: post).findIdx?
        (fun s => getNum s == getNum "step3".toList) = some 0 := by
      simp [List.findIdx?_cons]
    rw [h1, h2]
    simp
  have hemp : ("step3".toList).isEmpty = false := by decide
  simp only [handleGraphNodeClick, hemp, Bool.false_eq_true, if_false, resolveStep]
  rw [hq]

/-- **C2, witness** for the amended statement: with one earlier step `"a"`
(extracted number −1 ≠ 3), the entry `"step3"` at position 1 is selected. -/
theorem claim_C2_amended_witness :
    (∀ s ∈ [("a".toList : List Char)], getNum s ≠ 3) ∧
    handleGraphNodeClick "step3".toList ["a".toList, "step3".toList] = some 1 :=
  ⟨by decide, claim_C2_amended ["a".toList] [] (by decide)⟩

/-- **C8.**  (i) For node id `"5"` against a 3-element step list in which no
step has extracted number 5 and no step is literally `"5"`, every rule fails
— in particular the positional fallback, since 5 exceeds the list length —
and the highlight is cleared (`none`) without any exception (the embedding is
a total function).  (ii) A node id with no digits at all is likewise handled:
the sentinel −1 fails the numeric rule against all-numbered steps, exact
match fails when the id is not among them, the positional rule is skipped
because −1 is not positive, and the result is a clean `none`. -/
theorem claim_C8 :
    (∀ steps : List (List Char), steps.length = 3 →
      (∀ s ∈ steps, getNum s ≠ 5) → (∀ s ∈ steps, s ≠ "5".toList) →
      handleGraphNodeClick "5".toList steps = none) ∧
    (∀ (nodeId : List Char) (steps : List (List Char)), hasDigit nodeId = false →
      (∀ s ∈ steps, hasDigit s = true) → nodeId ∉ steps →
      handleGraphNodeClick nodeId steps = none) := by
  constructor
  · intro steps hlen h5 hex
    have hg5 : getNum "5".toList = 5 := by decide
    have h1 : steps.findIdx? (fun s => getNum s == getNum "5".toList) = none := by
      rw [List.findIdx?_eq_none_iff]
      intro x hx
      simp only [hg5, beq_eq_false_iff_ne, ne_eq]
      exact h5 x hx
    have h2 : steps.findIdx? (fun s => s == "5".toList) = none := by
      rw [List.findIdx?_eq_none_iff]
      intro x hx
      simp only [beq_eq_false_iff_ne, ne_eq]
      exact hex x hx
    have hemp : ("5".toList).isEmpty = false := by decide
    simp only [handleGraphNodeClick, hemp, Bool.false_eq_true, if_false, resolveStep]
    rw [h1, h2, hg5, if_neg (by rw [hlen]; decide)]
  · intro nodeId steps hnd hall hmem
    by_cases hemp : nodeId.isEmpty
    · simp [handleGraphNodeClick, hemp]
    · have hneg : getNum nodeId = -1 := getNum_eq_neg_one hnd
      have h1 : steps.findIdx? (fun s => getNum s == getNum nodeId) = none := by
        rw [List.findIdx?_eq_none_iff]
        intro x hx
        have hge := getNum_nonneg (hall x hx)
        simp only [hneg, beq_eq_false_iff_ne, ne_eq]
        omega
      have h2 : steps.findIdx? (fun s => s == nodeId) = none := by
        rw [List.findIdx?_eq_none_iff]
        intro x hx
        simp only [beq_eq_false_iff_ne, ne_eq]
        rintro rfl
        exact hmem hx
      simp only [handleGraphNodeClick, resolveStep, hemp, Bool.false_eq_true, if_false]
      rw [h1, h2, hneg, if_neg (by simp)]

/-- **C8, witness**: both parts applied to the 3-element step list
`["a1", "b2", "c3"]`, with node ids `"5"` and `"xyz"`. -/
theorem claim_C8_witness :
    handleGraphNodeClick "5".toList ["a1".toList, "b2".toList, "c3".toList] = none ∧
    handleGraphNodeClick "xyz".toList ["a1".toList, "b2".toList, "c3".toList] = none :=
  ⟨claim_C8.1 ["a1".toList, "b2".toList, "c3".toList] (by decide) (by decide) (by decide),
   claim_C8.2 "xyz".toList ["a1".toList, "b2".toList, "c3".toList] (by decide) (by decide)
     (by decide)⟩

/-- **C9.**  For a selected node whose id contains no digits, `getNum` yields
the sentinel −1, and the numeric rule then matches the *first* step whose
`step_id` also contains no digits (sentinel equals sentinel): that step's
index is the result, so the exact-string-match rule is never consulted for
such a node. -/
theorem claim_C9 (nodeId s : List Char) (pre post : List (List Char))
    (hne : nodeId ≠ []) (hnd : hasDigit nodeId = false)
    (hpre : ∀ t ∈ pre, hasDigit t = true) (hs : hasDigit s = false) :
    handleGraphNodeClick nodeId (pre ++ s :: post) = some pre.length := by
  have hneg : getNum nodeId = -1 := getNum_eq_neg_one hnd
  have hq : (pre ++ s :: post).findIdx? (fun t => getNum t == getNum nodeId)
      = some pre.length := by
    rw [List.findIdx?_append]
    have h1 : pre.findIdx? (fun t => getNum t == getNum nodeId) = none := by
      rw [List.findIdx?_eq_none_iff]
      intro x hx
      have hge := getNum_nonneg (hpre x hx)
      simp only [hneg, beq_eq_false_iff_ne, ne_eq]
      omega
    have h2 : (s :: post).findIdx? (fun t => getNum t == getNum nodeId) = some 0 := by
      simp [List.findIdx?_cons, getNum_eq_neg_one hs, hneg]
    rw [h1, h2]
    simp
  have hemp : nodeId.isEmpty = false := by
    cases nodeId with
    | nil => exact absurd rfl hne
    | cons c t => rfl
  simp only [handleGraphNodeClick, resolveStep, hemp, Bool.false_eq_true, if_false]
  rw [hq]

/-- **C9, witness**: node id `"abc"` (no digits) against
`["x1", "yz", "w2"]` highlights index 1, the first digit-free step. -/
theorem claim_C9_witness :
    handleGraphNodeClick "abc".toList ["x1".toList, "yz".toList, "w2".toList] = some 1 :=
  claim_C9 "abc".toList "yz".toList ["x1".toList] ["w2".toList] (by decide) (by decide)
    (by decide) (by decide)

/-! # Claims about the extractor -/

/-- **C1, counterexample.**  The input `note { see {"x":true} end` consists of
a single valid JSON object (`exC1json`, which parses directly) surrounded by
prose, yet the extractor returns `null`: the stray `{` in the prose makes the
brace-depth scan start there and never return to depth zero, and the greedy
regex then captures the unparseable span `{ see {"x":true}`.  So the claim's
universal statement over "prose" fails. -/
theorem claim_C1_counterexample :
    jsonParse exC1json = some (Json.obj [(['x'], Json.bool true)]) ∧
    extractJson exC1text = none ∧
    extractJson exC1text ≠ jsonParse exC1json := by
  refine ⟨rfl, rfl, ?_⟩
  intro h
  have h1 : extractJson exC1text = none := rfl
  have h2 : jsonParse exC1json = some (Json.obj [(['x'], Json.bool true)]) := rfl
  rw [h1, h2] at h
  exact Option.noConfusion h

/-- **C3** (code bug).  The spec says a dangling edge is tolerated and merely
excluded from level propagation, and the code's own defensive style
(`(incomingCount[l.target] || 0) + 1`, `levels[n.id] || 0`) shows tolerance
was the intent; but `adj[l.source].push(l.target)` reads `undefined` when the
`from` endpoint is not a node id and throws a `TypeError`.  Evaluating the
embedded code at nodes `["a"]`, edges `[("b", "a")]` (a dangling `from`)
yields the thrown outcome `none` rather than a level assignment. -/
theorem claim_C3_failing :
    nodeLevels ["a"] [("b", "a")] = none := rfl

/-- **C10.**  The fence stripping of fallback 2 removes the backtick
sequences *everywhere* in the text — here in the middle of `exC10text`,
inside a quoted JSON string value — and all later fallbacks run on that
globally stripped text.  Consequently the extractor returns
`{"a": ""}` while parsing the embedded object `{"a": "```"}` directly gives
a different value. -/
theorem claim_C10 :
    cleanOf exC10text = "Result: ".toList ++ ['{', '"', 'a', '"', ':', '"', '"', '}'] ∧
    extractJson exC10text = some (Json.obj [(['a'], Json.str [])]) ∧
    jsonParse exC10json = some (Json.obj [(['a'], Json.str [btick, btick, btick])]) ∧
    Json.obj [(['a'], Json.str [])] ≠ Json.obj [(['a'], Json.str [btick, btick, btick])] := by
  refine ⟨rfl, rfl, rfl, ?_⟩
  simp [btick]

/-- **C5.**  The extractor is a total function of its input (so it cannot
throw or hang in the model), it returns either a parsed value or `none`, and
it returns `none` exactly when every parse attempt of the fallback chain
fails: the strict parse, the parse of the fence-stripped text, the parse of
the brace-scan extract, and the parse of the greedy-regex extract (the last
two vacuously failing when no candidate exists). -/
theorem claim_C5 (t : List Char) :
    extractJson t = none ↔
      jsonParse t = none ∧ jsonParse (cleanOf t) = none ∧
      (braceCandidate (cleanOf t)).bind jsonParse = none ∧
      (regexCandidate (cleanOf t)).bind jsonParse = none := by
  unfold extractJson
  cases h1 : jsonParse t with
  | some v => simp
  | none =>
    cases h2 : jsonParse (cleanOf t) with
    | some v => simp
    | none =>
      cases h3 : (cleanOf t).findIdx? (fun c => c == '{') with
      | none =>
        have hb : braceCandidate (cleanOf t) = none := by
          unfold braceCandidate
          rw [h3]
        have hr : regexCandidate (cleanOf t) = none := by
          cases h4 : (cleanOf t).reverse.findIdx? (fun c => c == '}') <;>
            simp [regexCandidate, h3, h4]
        simp [hb, hr]
      | some s =>
        cases h4 : braceCandidate (cleanOf t) with
        | some cand =>
          cases h5 : jsonParse cand with
          | some v => simp [h4, h5]
          | none =>
            cases h6 : regexCandidate (cleanOf t) with
            | some m => simp [h4, h5, h6]
            | none => simp [h4, h5, h6]
        | none =>
          cases h6 : regexCandidate (cleanOf t) with
          | some m => simp [h4, h6]
          | none => simp [h4, h6]

/-! ## Fence-stripping lemmas -/

theorem stripFenceAux_nil (pat : List Char) (f : Nat) : stripFenceAux pat f [] = [] := by
  cases f <;> rfl

theorem leadsWith_length : ∀ (pat l : List Char), leadsWith pat l = true →
    pat.length ≤ l.length := by
  intro pat
  induction pat with
  | nil => intro l _; simp
  | cons p ps ih =>
    intro l h
    cases l with
    | nil => simp [leadsWith] at h
    | cons c cs =>
      simp only [leadsWith, Bool.and_eq_true] at h
      have := ih cs h.2
      simp only [List.length_cons]
      omega

theorem leadsWith_append_self : ∀ (pat r : List Char), leadsWith pat (pat ++ r) = true := by
  intro pat
  induction pat with
  | nil => intro r; rfl
  | cons p ps ih => intro r; simp [leadsWith, ih]

theorem stripFenceAux_short (pat : List Char) : ∀ (l : List Char) (f : Nat),
    l.length ≤ f → l.length < pat.length → stripFenceAux pat f l = l := by
  intro l
  induction l with
  | nil => intro f _ _; exact stripFenceAux_nil pat f
  | cons c cs ih =>
    intro f hf hlen
    cases f with
    | zero => simp at hf
    | succ f' =>
      have hlw : leadsWith pat (c :: cs) = false := by
        by_contra h
        rw [Bool.not_eq_false] at h
        have := leadsWith_length pat (c :: cs) h
        omega
      simp only [stripFenceAux, hlw, Bool.false_eq_true, if_false, List.cons.injEq, true_and]
      exact ih f' (by simpa using Nat.le_of_succ_le_succ (by simpa using hf))
        (by simp only [List.length_cons] at hlen; omega)

theorem stripFenceAux_passthrough (b : Char) (ps : List Char) :
    ∀ (l r : List Char) (f : Nat), l.length ≤ f → b ∉ l →
    stripFenceAux (b :: ps) f (l ++ r) =
      l ++ stripFenceAux (b :: ps) (f - l.length) r := by
  intro l
  induction l with
  | nil => intro r f _ _; simp
  | cons c cs ih =>
    intro r f hf hb
    cases f with
    | zero => simp at hf
    | succ f' =>
      have hc : (b == c) = false := by
        simp only [beq_eq_false_iff_ne, ne_eq]
        intro h
        exact hb (h ▸ List.mem_cons_self c cs)
      have hlw : leadsWith (b :: ps) (c :: (cs ++ r)) = false := by
        simp [leadsWith, hc]
      simp only [List.cons_append, stripFenceAux, List.append_eq, hlw, Bool.false_eq_true,
        if_false, List.length_cons, Nat.succ_sub_succ]
      rw [ih r f' (by simp only [List.length_cons] at hf; omega)
        (fun h => hb (List.mem_cons_of_mem c h))]

theorem stripJson_tail_fixed (f : Nat) (hf : 4 ≤ f) :
    stripFenceAux fenceJsonChars f ('\n' :: fenceChars) = '\n' :: fenceChars :=
  stripFenceAux_short fenceJsonChars ('\n' :: fenceChars) f (by simpa [fenceChars] using hf)
    (by decide)

theorem strip_tail_fixed (f : Nat) (hf : 2 ≤ f) :
    stripFenceAux fenceChars f ('\n' :: fenceChars) = ['\n'] := by
  cases f with
  | zero => omega
  | succ f1 =>
    cases f1 with
    | zero => omega
    | succ f2 =>
      have e1 : stripFenceAux fenceChars (f2 + 1 + 1) ('\n' :: fenceChars)
          = '\n' :: stripFenceAux fenceChars (f2 + 1) fenceChars := by
        simp only [stripFenceAux]
        rw [if_neg (by decide)]
      rw [e1]
      have hcons : (fenceChars : List Char) = btick :: btick :: btick :: [] := by decide
      have e2 : stripFenceAux fenceChars (f2 + 1) fenceChars
          = stripFenceAux fenceChars f2
              ((List.drop fenceChars.length fenceChars).dropWhile isJsWs) := by
        conv_lhs => rw [hcons]
        simp only [stripFenceAux]
        rw [if_pos (by decide), ← hcons]
      rw [e2, show ((List.drop fenceChars.length fenceChars).dropWhile isJsWs : List Char)
        = [] by decide, stripFenceAux_nil]

theorem stripJsonFence_wrap (j : List Char) (hb : btick ∉ j) (hhead : j.head? = some '{') :
    ∀ f, j.length + 5 ≤ f →
    stripFenceAux fenceJsonChars f (fenceJsonChars ++ ('\n' :: (j ++ ('\n' :: fenceChars))))
      = j ++ ('\n' :: fenceChars) := by
  obtain ⟨j', rfl⟩ : ∃ j', j = '{' :: j' := by
    cases j with
    | nil => simp at hhead
    | cons c t =>
      simp only [List.head?_cons, Option.some.injEq] at hhead
      exact ⟨t, by rw [hhead]⟩
  intro f hf
  cases f with
  | zero => simp at hf
  | succ f1 =>
    have hpat : (fenceJsonChars : List Char) = btick :: "``json".toList := by decide
    have hcons : (fenceJsonChars ++ ('\n' :: (('{' :: j') ++ ('\n' :: fenceChars))) : List Char)
        = btick :: ("``json".toList ++ ('\n' :: (('{' :: j') ++ ('\n' :: fenceChars)))) := by
      rw [hpat]
      rfl
    have e1 : stripFenceAux fenceJsonChars (f1 + 1)
        (fenceJsonChars ++ ('\n' :: (('{' :: j') ++ ('\n' :: fenceChars))))
        = stripFenceAux fenceJsonChars f1
            ((List.drop fenceJsonChars.length
              (fenceJsonChars ++ ('\n' :: (('{' :: j') ++ ('\n' :: fenceChars))))).dropWhile
                isJsWs) := by
      conv_lhs => rw [hcons]
      simp only [stripFenceAux]
      rw [if_pos (by rw [← hcons]; exact leadsWith_append_self _ _), ← hcons]
    rw [e1, List.drop_left]
    have e2 : (('\n' :: (('{' :: j') ++ ('\n' :: fenceChars)) : List Char)).dropWhile isJsWs
        = ('{' :: j') ++ ('\n' :: fenceChars) := by
      rw [List.dropWhile_cons, if_pos (by decide), List.cons_append, List.dropWhile_cons,
        if_neg (by decide), ← List.cons_append]
    rw [e2, hpat]
    rw [stripFenceAux_passthrough btick "``json".toList ('{' :: j') ('\n' :: fenceChars) f1
      (by simp only [List.length_cons] at hf ⊢; omega) hb]
    rw [← hpat]
    rw [stripJson_tail_fixed (f1 - ('{' :: j').length)
      (by simp only [List.length_cons] at hf ⊢; omega)]

theorem cleanOf_fenceWrap (j : List Char) (hb : btick ∉ j) (hhead : j.head? = some '{')
    (hlast : j.getLast? = some '}') : cleanOf (fenceWrap j) = j := by
  have hw : fenceWrap j = fenceJsonChars ++ ('\n' :: (j ++ ('\n' :: fenceChars))) := by
    unfold fenceWrap
    simp
  have hlen : (fenceWrap j).length = j.length + 12 := by
    rw [hw]
    simp only [List.length_append, List.length_cons,
      show (fenceJsonChars : List Char).length = 7 by decide,
      show (fenceChars : List Char).length = 3 by decide]
    omega
  have h1 : stripJsonFence (fenceWrap j) = j ++ ('\n' :: fenceChars) := by
    unfold stripJsonFence
    rw [hlen, hw]
    exact stripJsonFence_wrap j hb hhead (j.length + 12) (by omega)
  have h2 : stripFence (j ++ ('\n' :: fenceChars)) = j ++ ['\n'] := by
    unfold stripFence
    have hpat : (fenceChars : List Char) = btick :: "``".toList := by decide
    rw [hpat]
    rw [stripFenceAux_passthrough btick "``".toList j ('\n' :: (btick :: "``".toList))
      (j ++ ('\n' :: (btick :: "``".toList))).length
      (by simp [List.length_append]) hb]
    rw [← hpat]
    rw [strip_tail_fixed ((j ++ ('\n' :: fenceChars)).length - j.length)
      (by simp [List.length_append, show (fenceChars : List Char).length = 3 by decide])]
  have h3 : jsTrim (j ++ ['\n']) = j := by
    obtain ⟨j', rfl⟩ : ∃ j', j = '{' :: j' := by
      cases j with
      | nil => simp at hhead
      | cons c t =>
        simp only [List.head?_cons, Option.some.injEq] at hhead
        exact ⟨t, by rw [hhead]⟩
    unfold jsTrim
    rw [List.cons_append, List.dropWhile_cons, if_neg (by decide), ← List.cons_append]
    have hrev : (('{' :: j') ++ ['\n'] : List Char).reverse = '\n' :: ('{' :: j').reverse := by
      simp
    rw [hrev, List.dropWhile_cons, if_pos (by decide)]
    obtain ⟨rr, hrr⟩ : ∃ rr, ('{' :: j').reverse = '}' :: rr := by
      have := List.head?_reverse ('{' :: j')
      rw [hlast] at this
      cases hrev2 : ('{' :: j').reverse with
      | nil => rw [hrev2] at this; simp at this
      | cons c t =>
        rw [hrev2] at this
        simp only [List.head?_cons, Option.some.injEq] at this
        exact ⟨t, by rw [this]⟩
    rw [hrr, List.dropWhile_cons, if_neg (by decide), ← hrr, List.reverse_reverse]
  unfold cleanOf
  rw [h1, h2]
  have : (j ++ ('\n' :: fenceChars) : List Char) = j ++ ('\n' :: fenceChars) := rfl
  exact h3

theorem jsonParse_head_btick (l : List Char) (h : l.head? = some btick) :
    jsonParse l = none := by
  obtain ⟨t, rfl⟩ : ∃ t, l = btick :: t := by
    cases l with
    | nil => simp at h
    | cons c cs =>
      simp only [List.head?_cons, Option.some.injEq] at h
      exact ⟨cs, by rw [h]⟩
  unfold jsonParse
  have hskip : skipWs (btick :: t) = btick :: t := by
    unfold skipWs
    rw [List.dropWhile_cons, if_neg (by decide)]
  have hval : parseVal ((btick :: t).length + 1) (btick :: t) = none := by
    rw [show (btick :: t).length + 1 = t.length + 1 + 1 by simp]
    simp only [parseVal, hskip]
    rw [if_neg (by decide), if_neg (by decide), if_neg (by decide), if_neg (by decide),
      if_neg (by decide), if_neg (by decide), if_neg (by decide)]
  rw [hval]

/-- **C1, amended.**  For inputs that are exactly a valid JSON object text,
or such a text wrapped in the markdown fence `json` block the extractor is
designed to strip (with no backtick inside the JSON itself), the extractor
returns exactly the value of parsing the embedded JSON directly.  (The
original universal claim over arbitrary surrounding prose is refuted by
`claim_C1_counterexample`; the surviving guarantee is for fence wrapping,
the documented wrapper shape.) -/
theorem claim_C1_amended (j : List Char) (v : Json)
    (hp : jsonParse j = some v) (hb : btick ∉ j)
    (hhead : j.head? = some '{') (hlast : j.getLast? = some '}') :
    extractJson j = some v ∧ extractJson (fenceWrap j) = some v := by
  constructor
  · unfold extractJson
    rw [hp]
  · have h1 : jsonParse (fenceWrap j) = none := by
      apply jsonParse_head_btick
      have : (fenceJsonChars : List Char) = btick :: "``json".toList := by decide
      unfold fenceWrap
      rw [this]
      rfl
    have h2 : cleanOf (fenceWrap j) = j := cleanOf_fenceWrap j hb hhead hlast
    unfold extractJson
    rw [h1, h2, hp]

/-- **C1, witness**: the object text `{"x":true}` (`exC1json`), plain and
fence-wrapped, both extract to the directly parsed value. -/
theorem claim_C1_amended_witness :
    jsonParse exC1json = some (Json.obj [(['x'], Json.bool true)]) ∧
    extractJson exC1json = some (Json.obj [(['x'], Json.bool true)]) ∧
    extractJson (fenceWrap exC1json) = some (Json.obj [(['x'], Json.bool true)]) :=
  ⟨rfl,
   (claim_C1_amended exC1json (Json.obj [(['x'], Json.bool true)]) rfl (by decide)
     (by decide) (by decide)).1,
   (claim_C1_amended exC1json (Json.obj [(['x'], Json.bool true)]) rfl (by decide)
     (by decide) (by decide)).2⟩

/-! ## Brace-scan lemmas -/

theorem scanCloseAux_eq_frag : ∀ (l : List Char) (i : Nat) (inS esc : Bool) (d : Int),
    scanCloseAux l i inS esc d =
      match scanFragAux l i inS esc d with
      | .inl k => some k
      | .inr _ => none := by
  intro l
  induction l with
  | nil => intros; rfl
  | cons c cs ih =>
    intro i inS esc d
    simp only [scanCloseAux, scanFragAux]
    split_ifs <;> first | rfl | apply ih

theorem scanFragAux_append : ∀ (a b : List Char) (i : Nat) (inS esc : Bool) (d : Int),
    scanFragAux (a ++ b) i inS esc d =
      match scanFragAux a i inS esc d with
      | .inl k => .inl k
      | .inr st => scanFragAux b (i + a.length) st.1 st.2.1 st.2.2 := by
  intro a
  induction a with
  | nil => intros; simp [scanFragAux]
  | cons c cs ih =>
    intro b i inS esc d
    have harith : i + 1 + cs.length = i + (c :: cs).length := by
      simp only [List.length_cons]
      omega
    simp only [List.cons_append, scanFragAux, List.append_eq]
    split_ifs <;> first | rfl | (rw [ih, harith])

theorem scanFragAux_out_plain (c : Char) (h1 : (c == '{') = false) (h2 : (c == '}') = false)
    (h3 : (c == '"') = false) (cs : List Char) (i : Nat) (esc : Bool) (d : Int) :
    scanFragAux (c :: cs) i false esc d = scanFragAux cs (i + 1) false esc d := by
  simp +decide [scanFragAux, h1, h2, h3]

theorem scanFragAux_out_open (cs : List Char) (i : Nat) (esc : Bool) (d : Int) :
    scanFragAux ('{' :: cs) i false esc d = scanFragAux cs (i + 1) false esc (d + 1) := by
  simp +decide [scanFragAux]

theorem scanFragAux_out_close_go (cs : List Char) (i : Nat) (esc : Bool) {d : Int}
    (h : (d - 1 == 0) = false) :
    scanFragAux ('}' :: cs) i false esc d = scanFragAux cs (i + 1) false esc (d - 1) := by
  simp +decide [scanFragAux, h]

theorem scanFragAux_out_close_hit (cs : List Char) (i : Nat) (esc : Bool) {d : Int}
    (h : (d - 1 == 0) = true) :
    scanFragAux ('}' :: cs) i false esc d = .inl i := by
  simp +decide [scanFragAux, h]

theorem scanFragAux_out_quote (cs : List Char) (i : Nat) (esc : Bool) (d : Int) :
    scanFragAux ('"' :: cs) i false esc d = scanFragAux cs (i + 1) true esc d := by
  simp +decide [scanFragAux]

theorem scanFragAux_in_esc (c : Char) (cs : List Char) (i : Nat) (d : Int) :
    scanFragAux (c :: cs) i true true d = scanFragAux cs (i + 1) true false d := by
  simp [scanFragAux]

theorem scanFragAux_in_bslash (cs : List Char) (i : Nat) (d : Int) :
    scanFragAux ('\\' :: cs) i true false d = scanFragAux cs (i + 1) true true d := by
  simp +decide [scanFragAux]

theorem scanFragAux_in_quote (cs : List Char) (i : Nat) (d : Int) :
    scanFragAux ('"' :: cs) i true false d = scanFragAux cs (i + 1) false false d := by
  simp +decide [scanFragAux]

theorem scanFragAux_in_plain (c : Char) (h1 : (c == '\\') = false) (h2 : (c == '"') = false)
    (cs : List Char) (i : Nat) (d : Int) :
    scanFragAux (c :: cs) i true false d = scanFragAux cs (i + 1) true false d := by
  simp +decide [scanFragAux, h1, h2]

theorem scanFragAux_escapeChar (c : Char) (i : Nat) (d : Int) :
    scanFragAux (escapeChar c) i true false d = .inr (true, false, d) := by
  unfold escapeChar
  by_cases h : (c == '"' || c == '\\') = true
  · rw [if_pos h]
    rw [scanFragAux_in_bslash]
    rw [scanFragAux_in_esc]
    rfl
  · rw [if_neg h]
    simp only [Bool.or_eq_true, not_or, Bool.not_eq_true] at h
    rw [scanFragAux_in_plain c h.2 h.1]
    rfl

theorem scanFragAux_strBody (s : List Char) : ∀ (i : Nat) (d : Int),
    scanFragAux (strBody s) i true false d = .inr (true, false, d) := by
  induction s with
  | nil => intros; rfl
  | cons c s' ih =>
    intro i d
    have hsb : strBody (c :: s') = escapeChar c ++ strBody s' := rfl
    rw [hsb, scanFragAux_append, scanFragAux_escapeChar]
    exact ih _ _

theorem scanFragAux_serializeStr (s : List Char) (i : Nat) (d : Int) :
    scanFragAux (serializeStr s) i false false d = .inr (false, false, d) := by
  unfold serializeStr
  rw [show ('"' :: strBody s ++ ['"'] : List Char) = '"' :: (strBody s ++ ['"']) by simp]
  rw [scanFragAux_out_quote, scanFragAux_append, scanFragAux_strBody]
  show scanFragAux ['"'] (i + 1 + (strBody s).length) true false d = Sum.inr (false, false, d)
  rw [scanFragAux_in_quote]
  rfl

theorem scanFragAux_numTok (tok : List Char)
    (h : tok.all (fun c => c.isDigit || c == '-' || c == '+' || c == '.'
      || c == 'e' || c == 'E') = true) :
    ∀ (i : Nat) (d : Int), scanFragAux tok i false false d = .inr (false, false, d) := by
  induction tok with
  | nil => intros; rfl
  | cons c t ih =>
    intro i d
    rw [List.all_cons, Bool.and_eq_true] at h
    have hc := h.1
    have hnum : (c == '{') = false ∧ (c == '}') = false ∧ (c == '"') = false := by
      refine ⟨?_, ?_, ?_⟩ <;>
      · rw [beq_eq_false_iff_ne]
        rintro rfl
        revert hc
        decide
    rw [scanFragAux_out_plain c hnum.1 hnum.2.1 hnum.2.2]
    exact ih h.2 _ _

theorem scanFragAux_joinComma (d : Int) : ∀ (ps : List (List Char)),
    (∀ p ∈ ps, ∀ i, scanFragAux p i false false d = .inr (false, false, d)) →
    ∀ i, scanFragAux (joinComma ps) i false false d = .inr (false, false, d) := by
  intro ps
  induction ps with
  | nil => intros; rfl
  | cons x ys ih =>
    cases ys with
    | nil =>
      intro h i
      exact h x (List.mem_singleton_self x) i
    | cons y t =>
      intro h i
      have hj : joinComma (x :: y :: t) = x ++ ',' :: joinComma (y :: t) := rfl
      rw [hj, scanFragAux_append, h x (List.mem_cons_self x (y :: t)) i]
      show scanFragAux (',' :: joinComma (y :: t)) (i + x.length) false false d
        = Sum.inr (false, false, d)
      rw [scanFragAux_out_plain ',' (by decide) (by decide) (by decide)]
      exact ih (fun p hp i' => h p (List.mem_cons_of_mem x hp) i') _

theorem scanFragAux_plainList (l : List Char)
    (h : l.all (fun c => !(c == '{') && !(c == '}') && !(c == '"')) = true) :
    ∀ (i : Nat) (d : Int), scanFragAux l i false false d = .inr (false, false, d) := by
  induction l with
  | nil => intros; rfl
  | cons c t ih =>
    intro i d
    rw [List.all_cons, Bool.and_eq_true] at h
    obtain ⟨hc, ht⟩ := h
    rw [Bool.and_eq_true, Bool.and_eq_true] at hc
    rw [scanFragAux_out_plain c (by simpa using hc.1.1) (by simpa using hc.1.2)
      (by simpa using hc.2)]
    exact ih ht _ _

theorem scan_serialize_neutral :
    ∀ (n : Nat) (v : Json), sizeOf v < n → wfJson v = true →
    ∀ (i : Nat) (d : Int), 1 ≤ d →
    scanFragAux (serialize v) i false false d = .inr (false, false, d) := by
  intro n
  induction n with
  | zero => intro v h; omega
  | succ n ih =>
    intro v hsz hwf i d hd
    cases v with
    | null =>
      rw [show serialize Json.null = "null".toList from by simp [serialize]]
      exact scanFragAux_plainList _ (by decide) _ _
    | bool b =>
      cases b with
      | true =>
        rw [show serialize (Json.bool true) = "true".toList from by simp [serialize]]
        exact scanFragAux_plainList _ (by decide) _ _
      | false =>
        rw [show serialize (Json.bool false) = "false".toList from by simp [serialize]]
        exact scanFragAux_plainList _ (by decide) _ _
    | num tok =>
      rw [show serialize (Json.num tok) = tok from by simp [serialize]]
      simp only [wfJson, numOk, Bool.and_eq_true] at hwf
      exact scanFragAux_numTok tok hwf.2 _ _
    | str s =>
      rw [show serialize (Json.str s) = serializeStr s from by simp [serialize]]
      exact scanFragAux_serializeStr s i d
    | arr xs =>
      rw [show serialize (Json.arr xs)
          = ('[' :: joinComma (xs.attach.map (fun x => serialize x.1))) ++ [']'] from by
        rw [serialize]]
      rw [List.cons_append]
      rw [scanFragAux_out_plain '[' (by decide) (by decide) (by decide)]
      rw [scanFragAux_append]
      have hparts : ∀ p ∈ xs.attach.map (fun x => serialize x.1), ∀ i',
          scanFragAux p i' false false d = .inr (false, false, d) := by
        intro p hp i'
        rw [List.mem_map] at hp
        obtain ⟨⟨x, hxmem⟩, _, rfl⟩ := hp
        have hszx : sizeOf x < n := by
          have h1 := List.sizeOf_lt_of_mem hxmem
          simp only [Json.arr.sizeOf_spec] at hsz
          omega
        have hwfx : wfJson x = true := by
          simp only [wfJson, List.all_eq_true] at hwf
          exact hwf ⟨x, hxmem⟩ (List.mem_attach xs ⟨x, hxmem⟩)
        exact ih x hszx hwfx i' d hd
      rw [scanFragAux_joinComma d _ hparts]
      show scanFragAux [']'] (i + 1 + (joinComma (xs.attach.map (fun x => serialize x.1))).length)
        false false d = Sum.inr (false, false, d)
      rw [scanFragAux_out_plain ']' (by decide) (by decide) (by decide)]
      rfl
    | obj fs =>
      rw [show serialize (Json.obj fs)
          = ('{' :: joinComma (fs.attach.map
              (fun kv => serializeStr kv.1.1 ++ ':' :: serialize kv.1.2))) ++ ['}'] from by
        rw [serialize]]
      rw [List.cons_append]
      rw [scanFragAux_out_open]
      rw [scanFragAux_append]
      have hparts : ∀ p ∈ fs.attach.map (fun kv => serializeStr kv.1.1 ++ ':' :: serialize kv.1.2),
          ∀ i', scanFragAux p i' false false (d + 1) = .inr (false, false, d + 1) := by
        intro p hp i'
        rw [List.mem_map] at hp
        obtain ⟨⟨⟨k, w⟩, hkwmem⟩, _, rfl⟩ := hp
        have hszw : sizeOf w < n := by
          have h1 := List.sizeOf_lt_of_mem hkwmem
          simp only [Json.obj.sizeOf_spec] at hsz
          simp only [Prod.mk.sizeOf_spec] at h1
          omega
        have hwfw : wfJson w = true := by
          simp only [wfJson, List.all_eq_true] at hwf
          exact hwf ⟨(k, w), hkwmem⟩ (List.mem_attach fs ⟨(k, w), hkwmem⟩)
        rw [show (serializeStr k ++ ':' :: serialize w : List Char)
            = serializeStr k ++ (':' :: serialize w) from rfl]
        rw [scanFragAux_append, scanFragAux_serializeStr]
        show scanFragAux (':' :: serialize w) (i' + (serializeStr k).length) false false (d + 1)
          = Sum.inr (false, false, d + 1)
        rw [scanFragAux_out_plain ':' (by decide) (by decide) (by decide)]
        exact ih w hszw hwfw _ (d + 1) (by omega)
      rw [scanFragAux_joinComma (d + 1) _ hparts]
      show scanFragAux ['}'] (i + 1 + (joinComma (fs.attach.map
          (fun kv => serializeStr kv.1.1 ++ ':' :: serialize kv.1.2))).length)
        false false (d + 1) = Sum.inr (false, false, d)
      rw [scanFragAux_out_close_go _ _ _ (by
        simp only [beq_eq_false_iff_ne, ne_eq]
        omega)]
      rw [show (d + 1 - 1 : Int) = d by omega]
      rfl

theorem serialize_obj_eq (fs : List (List Char × Json)) :
    serialize (Json.obj fs)
      = ('{' :: joinComma (fs.attach.map
          (fun kv => serializeStr kv.1.1 ++ ':' :: serialize kv.1.2))) ++ ['}'] := by
  rw [serialize]

theorem scan_object_hit (fs : List (List Char × Json)) (hwf : wfJson (Json.obj fs) = true)
    (i : Nat) :
    scanFragAux (serialize (Json.obj fs)) i false false 0
      = .inl (i + (serialize (Json.obj fs)).length - 1) := by
  rw [serialize_obj_eq fs]
  rw [List.cons_append, scanFragAux_out_open, scanFragAux_append]
  rw [show ((0 : Int) + 1) = 1 from by decide]
  have hparts : ∀ pt ∈ fs.attach.map (fun kv => serializeStr kv.1.1 ++ ':' :: serialize kv.1.2),
      ∀ i', scanFragAux pt i' false false 1 = .inr (false, false, 1) := by
    intro pt hpt i'
    rw [List.mem_map] at hpt
    obtain ⟨⟨⟨k, w⟩, hkwmem⟩, _, rfl⟩ := hpt
    have hwfw : wfJson w = true := by
      simp only [wfJson, List.all_eq_true] at hwf
      exact hwf ⟨(k, w), hkwmem⟩ (List.mem_attach fs ⟨(k, w), hkwmem⟩)
    rw [show (serializeStr k ++ ':' :: serialize w : List Char)
        = serializeStr k ++ (':' :: serialize w) from rfl]
    rw [scanFragAux_append, scanFragAux_serializeStr]
    show scanFragAux (':' :: serialize w) (i' + (serializeStr k).length) false false 1
      = Sum.inr (false, false, 1)
    rw [scanFragAux_out_plain ':' (by decide) (by decide) (by decide)]
    exact scan_serialize_neutral (sizeOf w + 1) w (by omega) hwfw _ 1 (by omega)
  rw [scanFragAux_joinComma 1 _ hparts]
  show scanFragAux ['}'] (i + 1 + (joinComma (fs.attach.map
      (fun kv => serializeStr kv.1.1 ++ ':' :: serialize kv.1.2))).length)
    false false 1 = _
  rw [scanFragAux_out_close_hit _ _ _ (by decide)]
  congr 1
  simp only [List.length_cons, List.length_append, List.length_nil]
  omega

/-- **C4.**  The string-aware brace-depth scan of `extractJson` is correct on
every well-formed JSON object text: for any noise prefix `p` that contains no
opening brace (so the scan starts at the object) and arbitrary noise suffix
`q`, step 4 extracts exactly the serialized object — braces inside quoted
string values (handled by the `inString`/`escaped` automaton) do not
terminate the scan early, and the matching outer closing brace is found. -/
theorem claim_C4 (p q : List Char) (fs : List (List Char × Json))
    (hwf : wfJson (Json.obj fs) = true) (hp : '{' ∉ p) :
    braceCandidate (p ++ (serialize (Json.obj fs) ++ q))
      = some (serialize (Json.obj fs)) := by
  obtain ⟨t, hjt⟩ : ∃ t, serialize (Json.obj fs) = '{' :: t :=
    ⟨joinComma (fs.attach.map
      (fun kv => serializeStr kv.1.1 ++ ':' :: serialize kv.1.2)) ++ ['}'], by
      rw [serialize_obj_eq fs, List.cons_append]⟩
  have hfind : (p ++ (serialize (Json.obj fs) ++ q)).findIdx? (fun c => c == '{')
      = some p.length := by
    rw [List.findIdx?_append]
    have h1 : p.findIdx? (fun c => c == '{') = none := by
      rw [List.findIdx?_eq_none_iff]
      intro x hx
      rw [beq_eq_false_iff_ne]
      rintro rfl
      exact hp hx
    have h2 : (serialize (Json.obj fs) ++ q).findIdx? (fun c => c == '{') = some 0 := by
      rw [hjt, List.cons_append]
      simp [List.findIdx?_cons]
    simp [h1, h2]
  have hdrop : (p ++ (serialize (Json.obj fs) ++ q)).drop p.length
      = serialize (Json.obj fs) ++ q := List.drop_left p _
  have hscan : scanClose (p ++ (serialize (Json.obj fs) ++ q)) p.length
      = some (p.length + (serialize (Json.obj fs)).length - 1) := by
    unfold scanClose
    rw [hdrop, scanCloseAux_eq_frag, scanFragAux_append, scan_object_hit fs hwf]
  have harith : p.length + (serialize (Json.obj fs)).length - 1 + 1 - p.length
      = (serialize (Json.obj fs)).length := by
    rw [hjt]
    simp only [List.length_cons]
    omega
  simp only [braceCandidate, hfind, hscan, hdrop]
  rw [harith, List.take_left]

/-- **C4, witness**: noise `"noise "` and `" after"` around the serialized
object `{"a":"x{y}z"}`, whose string value contains both brace characters;
the brace-scan extraction returns exactly the object text. -/
theorem claim_C4_witness :
    wfJson (Json.obj [(['a'], Json.str ['x', '{', 'y', '}', 'z'])]) = true ∧
    ('{' ∉ "noise ".toList) ∧
    braceCandidate ("noise ".toList
        ++ (serialize (Json.obj [(['a'], Json.str ['x', '{', 'y', '}', 'z'])]) ++ " after".toList))
      = some (serialize (Json.obj [(['a'], Json.str ['x', '{', 'y', '}', 'z'])])) := by
  have hwf : wfJson (Json.obj [(['a'], Json.str ['x', '{', 'y', '}', 'z'])]) = true := by
    rw [wfJson]
    simp only [List.attach, List.attachWith, List.all_eq_true, List.mem_pmap]
    rintro x ⟨a, ha, rfl⟩
    simp only [List.mem_singleton] at ha
    subst ha
    show wfJson (Json.str ['x', '{', 'y', '}', 'z']) = true
    rw [wfJson]
  exact ⟨hwf, by decide, claim_C4 "noise ".toList " after".toList _ hwf (by decide)⟩


/-! ## Association-list lemmas for the level assigner -/

theorem getA_setA {β : Type} (m : List (String × β)) (k : String) (v : β) (k' : String) :
    getA (setA m k v) k' = if k' = k then some v else getA m k' := by
  induction m with
  | nil =>
    by_cases h : k' = k
    · subst h
      simp [getA, setA]
    · simp [getA, setA, beq_iff_eq, h, Ne.symm h]
  | cons hd t ih =>
    obtain ⟨k0, v0⟩ := hd
    by_cases h0 : k0 = k
    · subst h0
      by_cases h : k' = k0
      · subst h
        simp [getA, setA]
      · simp [getA, setA, beq_iff_eq, h, Ne.symm h]
    · by_cases h : k' = k
      · subst h
        simp [getA, setA, beq_iff_eq, h0, Ne.symm h0, ih]
      · simp [getA, setA, beq_iff_eq, h0, h, ih]

theorem getA_isSome_iff {β : Type} (m : List (String × β)) (k : String) :
    (getA m k).isSome = true ↔ k ∈ keysOf m := by
  induction m with
  | nil => simp [getA, keysOf]
  | cons hd t ih =>
    obtain ⟨k0, v0⟩ := hd
    by_cases h : k0 = k
    · subst h
      simp [getA, keysOf]
    · simp [getA, keysOf, beq_iff_eq, h, Ne.symm h, ih]

theorem mem_keys_setA {β : Type} (m : List (String × β)) (k : String) (v : β) (k' : String) :
    k' ∈ keysOf (setA m k v) ↔ k' = k ∨ k' ∈ keysOf m := by
  rw [← getA_isSome_iff, getA_setA, ← getA_isSome_iff]
  by_cases h : k' = k
  · simp [h]
  · simp [h]

theorem getA_foldl_const {β : Type} :
    ∀ (ns : List String) (m : List (String × β)) (c0 : β) (k : String),
    getA (List.foldl (fun m n => setA m n c0) m ns) k
      = if k ∈ ns then some c0 else getA m k := by
  intro ns
  induction ns with
  | nil => intro m c0 k; simp
  | cons n t ih =>
    intro m c0 k
    rw [List.foldl_cons, ih]
    by_cases ht : k ∈ t
    · simp [ht]
    · rw [if_neg ht, getA_setA]
      by_cases hn : k = n
      · simp [hn]
      · simp [hn, ht, List.mem_cons]

theorem buildInc_getA :
    ∀ (es : List (String × String)) (m : List (String × Nat)) (k : String),
    (getA m k).isSome = true →
    getA (buildInc m es) k
      = some ((getA m k).getD 0 + List.count k (es.map Prod.snd)) := by
  intro es
  induction es with
  | nil =>
    intro m k h
    obtain ⟨x, hx⟩ := Option.isSome_iff_exists.mp h
    simp [buildInc, hx]
  | cons e es ih =>
    obtain ⟨s, t⟩ := e
    intro m k h
    have h1 : (getA (setA m t ((getA m t).getD 0 + 1)) k).isSome = true := by
      rw [getA_setA]
      by_cases hkt : k = t
      · simp [hkt]
      · simpa [hkt] using h
    have := ih (setA m t ((getA m t).getD 0 + 1)) k h1
    rw [show buildInc m ((s, t) :: es) = buildInc (setA m t ((getA m t).getD 0 + 1)) es
      from rfl]
    rw [this, getA_setA]
    by_cases hkt : k = t
    · subst hkt
      rw [if_pos rfl]
      simp only [Option.getD_some, List.map_cons, List.count_cons_self, Option.some.injEq]
      omega
    · rw [if_neg hkt]
      simp only [List.map_cons, List.count_cons, Option.some.injEq]
      simp [beq_iff_eq, hkt]
      exact fun hh => hkt hh.symm

theorem buildAdj_sound :
    ∀ (es : List (String × String)) (m : List (String × List String)),
    (∀ e ∈ es, e.1 ∈ keysOf m) →
    ∃ m', buildAdj m es = some m' ∧ ∀ k,
      getA m' k = (getA m k).map
        (fun ch => ch ++ (es.filter (fun e => e.1 == k)).map Prod.snd) := by
  intro es
  induction es with
  | nil =>
    intro m _
    refine ⟨m, rfl, fun k => ?_⟩
    cases getA m k <;> simp
  | cons e es ih =>
    obtain ⟨s, t⟩ := e
    intro m hmem
    have hs : s ∈ keysOf m := hmem (s, t) (List.mem_cons_self _ _)
    obtain ⟨ch, hch⟩ := Option.isSome_iff_exists.mp ((getA_isSome_iff m s).mpr hs)
    have hmem' : ∀ e ∈ es, e.1 ∈ keysOf (setA m s (ch ++ [t])) := by
      intro e he
      rw [mem_keys_setA]
      exact Or.inr (hmem e (List.mem_cons_of_mem _ he))
    obtain ⟨m', hm', hcharm⟩ := ih (setA m s (ch ++ [t])) hmem'
    refine ⟨m', ?_, fun k => ?_⟩
    · rw [show buildAdj m ((s, t) :: es)
          = (match getA m s with
             | none => none
             | some ch => buildAdj (setA m s (ch ++ [t])) es) from rfl]
      rw [hch]
      exact hm'
    · rw [hcharm k, getA_setA]
      by_cases hks : k = s
      · subst hks
        rw [if_pos rfl, hch]
        simp only [Option.map_some, List.filter_cons]
        rw [if_pos (by simp)]
        simp [List.append_assoc]
      · rw [if_neg hks, List.filter_cons, if_neg (by simp [beq_iff_eq, Ne.symm hks])]

theorem setA_append_of_not_mem {β : Type} (m : List (String × β)) (k : String) (v : β)
    (h : k ∉ keysOf m) : setA m k v = m ++ [(k, v)] := by
  induction m with
  | nil => rfl
  | cons hd t ih =>
    obtain ⟨k0, v0⟩ := hd
    simp only [keysOf, List.map_cons, List.mem_cons] at h
    push_neg at h
    simp only [setA]
    rw [if_neg (by simp [beq_iff_eq]; exact fun hh => h.1 hh.symm)]
    rw [List.cons_append]
    congr 1
    exact ih (by simpa [keysOf] using h.2)

theorem sum_filter_src_le (es : List (String × String)) :
    ∀ (S : Finset String),
    (∑ k ∈ S, (es.filter (fun e => e.1 == k)).length) ≤ es.length := by
  induction es with
  | nil => intro S; simp
  | cons e es ih =>
    obtain ⟨s, t⟩ := e
    intro S
    have hstep : ∀ k, ((((s, t) :: es).filter (fun e => e.1 == k)).length : Nat)
        = (if k = s then 1 else 0) + (es.filter (fun e => e.1 == k)).length := by
      intro k
      rw [List.filter_cons]
      by_cases hks : k = s
      · rw [if_pos (by simp [beq_iff_eq, hks.symm])]
        simp only [List.length_cons, if_pos hks]
        omega
      · rw [if_neg (by simp [beq_iff_eq]; exact fun hh => hks hh.symm)]
        simp [hks]
    calc (∑ k ∈ S, (((s, t) :: es).filter (fun e => e.1 == k)).length)
        = (∑ k ∈ S, ((if k = s then 1 else 0) + (es.filter (fun e => e.1 == k)).length)) := by
          exact Finset.sum_congr rfl (fun k _ => hstep k)
      _ = (∑ k ∈ S, if k = s then 1 else 0)
            + (∑ k ∈ S, (es.filter (fun e => e.1 == k)).length) := Finset.sum_add_distrib
      _ ≤ 1 + es.length := by
          have h1 : (∑ k ∈ S, if k = s then (1 : Nat) else 0) ≤ 1 := by
            rw [Finset.sum_ite_eq' S s (fun _ => (1 : Nat))]
            by_cases hs : s ∈ S <;> simp [hs]
          exact Nat.add_le_add h1 (ih S)
      _ = ((s, t) :: es).length := by
          simp only [List.length_cons]
          omega

theorem bfsF_some (adj : List (String × List String))
    (hcl : ∀ k ch, getA adj k = some ch → ∀ c ∈ ch, c ∈ keysOf adj) :
    ∀ (fuel : Nat) (queue : List (String × Nat)) (visited : List String)
      (levels : List (String × Nat)),
    (∀ qe ∈ queue, qe.1 ∈ keysOf adj) →
    levelPhi adj queue visited ≤ fuel →
    ∃ L, bfsF fuel adj queue visited levels = some L := by
  intro fuel
  induction fuel with
  | zero =>
    intro queue visited levels _ hfuel
    cases queue with
    | nil => exact ⟨levels, rfl⟩
    | cons qe rest =>
      exfalso
      simp only [levelPhi, List.length_cons] at hfuel
      omega
  | succ n ih =>
    intro queue visited levels hq hfuel
    cases queue with
    | nil => exact ⟨levels, rfl⟩
    | cons qe rest =>
      obtain ⟨id, d⟩ := qe
      by_cases hv : visited.contains id
      · have hrec := ih rest visited levels (fun e he => hq e (List.mem_cons_of_mem _ he))
          (by simp only [levelPhi, List.length_cons] at hfuel ⊢; omega)
        obtain ⟨L, hL⟩ := hrec
        refine ⟨L, ?_⟩
        simp only [bfsF, hv, if_true]
        exact hL
      · have hmem : id ∈ keysOf adj := hq (id, d) (List.mem_cons_self _ _)
        obtain ⟨ch, hch⟩ := Option.isSome_iff_exists.mp ((getA_isSome_iff adj id).mpr hmem)
        have hvmem : id ∉ visited := fun hmem2 => hv (List.elem_iff.mpr hmem2)
        have hid_in : id ∈ (keysOf adj).toFinset \ visited.toFinset :=
          Finset.mem_sdiff.mpr ⟨List.mem_toFinset.mpr hmem,
            fun hc => hvmem (List.mem_toFinset.mp hc)⟩
        have hsplit := Finset.sum_erase_add ((keysOf adj).toFinset \ visited.toFinset)
          (chW adj) hid_in
        have hdiff : (keysOf adj).toFinset \ (id :: visited).toFinset
            = ((keysOf adj).toFinset \ visited.toFinset).erase id := by
          rw [List.toFinset_cons, Finset.sdiff_insert]
        have hchW : chW adj id = 1 + ch.length := by
          simp [chW, hch]
        have hq' : ∀ qe ∈ rest ++ ch.map (fun c => (c, d + 1)), qe.1 ∈ keysOf adj := by
          intro e he
          rcases List.mem_append.mp he with h1 | h1
          · exact hq e (List.mem_cons_of_mem _ h1)
          · obtain ⟨c, hc, rfl⟩ := List.mem_map.mp h1
            exact hcl id ch hch c hc
        have hfuel' : levelPhi adj (rest ++ ch.map (fun c => (c, d + 1))) (id :: visited)
            ≤ n := by
          simp only [levelPhi, List.length_append, List.length_map, List.length_cons] at hfuel ⊢
          rw [hdiff]
          rw [hchW] at hsplit
          omega
        obtain ⟨L, hL⟩ := ih _ _ (setA levels id d) hq' hfuel'
        refine ⟨L, ?_⟩
        simp only [bfsF, hv, Bool.false_eq_true, if_false, hch]
        exact hL

/-! # Claims about the level assigner -/

/-- **C6, counterexample.**  The claim quantifies over *every* non-empty node
and edge list; with nodes `["a", "b"]` and the single edge `("c", "b")`
(whose `from` endpoint is not a node) the level block throws at
`adj["c"].push` and no node receives a level, so the universal claim fails as
stated. -/
theorem claim_C6_counterexample :
    nodeLevels ["a", "b"] [("c", "b")] = none := rfl

/-- **C6, amended.**  For every non-empty node list and every edge list whose
endpoints all lie in the node set (so the unguarded `adj[l.source].push` and
`adj[id].forEach` reads cannot throw, cf. `claim_C3_failing`): the computed
seed set is exactly the zero-in-degree nodes (in-degree counted as
occurrences among edge targets) — and by definition of `initQueue` these are
enqueued at level 0, with the first node as fallback seed when there are
none — the breadth-first pass completes, and every node (unreachable ones
defaulting to level 0 via `levels[n.id] || 0`) receives exactly one
non-negative level, a pure function of the given node/edge ordering. -/
theorem claim_C6_amended (nodes : List String) (edges : List (String × String))
    (hne : nodes ≠ []) (hcl : ∀ e ∈ edges, e.1 ∈ nodes ∧ e.2 ∈ nodes) :
    seedsOf nodes (buildInc (incInit nodes) edges)
        = nodes.filter (fun n => (edges.map Prod.snd).count n == 0) ∧
    ∃ L, nodeLevels nodes edges = some L ∧ L.map Prod.fst = nodes := by
  have hseeds : seedsOf nodes (buildInc (incInit nodes) edges)
      = nodes.filter (fun n => (edges.map Prod.snd).count n == 0) := by
    unfold seedsOf
    apply List.filter_congr
    intro n hn
    have hbase : getA (incInit nodes) n = some 0 := by
      unfold incInit
      rw [getA_foldl_const]
      simp [hn]
    have hinc := buildInc_getA edges (incInit nodes) n (by simp [hbase])
    rw [hinc, hbase]
    simp
  have hkeys_base : ∀ k, getA (adjInit nodes) k = if k ∈ nodes then some [] else none := by
    intro k
    unfold adjInit
    rw [getA_foldl_const]
    by_cases h : k ∈ nodes <;> simp [h, getA]
  have hsrc : ∀ e ∈ edges, e.1 ∈ keysOf (adjInit nodes) := by
    intro e he
    rw [← getA_isSome_iff, hkeys_base, if_pos (hcl e he).1]
    rfl
  obtain ⟨adj, hadj, hchar⟩ := buildAdj_sound edges (adjInit nodes) hsrc
  have hkeysadj : ∀ k, k ∈ keysOf adj ↔ k ∈ nodes := by
    intro k
    rw [← getA_isSome_iff, hchar, hkeys_base]
    by_cases h : k ∈ nodes <;> simp [h]
  have hclosure : ∀ k ch, getA adj k = some ch → ∀ c ∈ ch, c ∈ keysOf adj := by
    intro k ch hk c hc
    rw [hchar, hkeys_base] at hk
    by_cases h : k ∈ nodes
    · rw [if_pos h] at hk
      simp only [Option.map_some', Option.some.injEq] at hk
      subst hk
      simp only [List.nil_append] at hc
      obtain ⟨e, he, rfl⟩ := List.mem_map.mp hc
      rw [hkeysadj]
      exact (hcl e (List.mem_filter.mp he).1).2
    · rw [if_neg h] at hk
      simp at hk
  have hqueue : ∀ qe ∈ initQueue nodes (seedsOf nodes (buildInc (incInit nodes) edges)),
      qe.1 ∈ keysOf adj := by
    intro qe hqe
    rw [hkeysadj]
    unfold initQueue at hqe
    by_cases hemp : (seedsOf nodes (buildInc (incInit nodes) edges)).isEmpty
    · rw [if_pos hemp] at hqe
      cases nodes with
      | nil => exact absurd rfl hne
      | cons n t =>
        simp only [List.mem_singleton] at hqe
        subst hqe
        exact List.mem_cons_self _ _
    · rw [if_neg hemp] at hqe
      obtain ⟨x, hx, rfl⟩ := List.mem_map.mp hqe
      unfold seedsOf at hx
      exact List.mem_filter.mp hx |>.1
  have hchlen : ∀ k, k ∈ nodes →
      (getA adj k).getD [] = (edges.filter (fun e => e.1 == k)).map Prod.snd := by
    intro k hk
    rw [hchar, hkeys_base, if_pos hk]
    simp
  have hkeysF : (keysOf adj).toFinset = nodes.toFinset := by
    ext k
    rw [List.mem_toFinset, List.mem_toFinset, hkeysadj]
  have hPhi : levelPhi adj (initQueue nodes (seedsOf nodes (buildInc (incInit nodes) edges)))
      [] ≤ levelFuel nodes edges := by
    unfold levelPhi levelFuel
    have hql : (initQueue nodes (seedsOf nodes (buildInc (incInit nodes) edges))).length
        ≤ nodes.length := by
      unfold initQueue
      by_cases hemp : (seedsOf nodes (buildInc (incInit nodes) edges)).isEmpty
      · rw [if_pos hemp]
        cases nodes with
        | nil => exact absurd rfl hne
        | cons n t => simp
      · rw [if_neg hemp]
        rw [List.length_map]
        unfold seedsOf
        exact List.length_filter_le _ _
    have hsum : (∑ k ∈ (keysOf adj).toFinset \ ([] : List String).toFinset, chW adj k)
        ≤ nodes.length + edges.length := by
      rw [show (([] : List String).toFinset) = ∅ from rfl, Finset.sdiff_empty, hkeysF]
      have hcongr : (∑ k ∈ nodes.toFinset, chW adj k)
          = ∑ k ∈ nodes.toFinset, (1 + (edges.filter (fun e => e.1 == k)).length) := by
        apply Finset.sum_congr rfl
        intro k hk
        unfold chW
        rw [hchlen k (List.mem_toFinset.mp hk), List.length_map]
      rw [hcongr, Finset.sum_add_distrib]
      have h1 : (∑ _k ∈ nodes.toFinset, (1 : Nat)) ≤ nodes.length := by
        rw [Finset.sum_const, smul_eq_mul, mul_one]
        exact List.toFinset_card_le nodes
      exact Nat.add_le_add h1 (sum_filter_src_le edges nodes.toFinset)
    omega
  obtain ⟨L0, hL0⟩ := bfsF_some adj hclosure (levelFuel nodes edges)
    (initQueue nodes (seedsOf nodes (buildInc (incInit nodes) edges))) [] [] hqueue hPhi
  refine ⟨hseeds, nodes.map (fun nd => (nd, (getA L0 nd).getD 0)), ?_, ?_⟩
  · simp only [nodeLevels, computeLevels, hadj, hL0]
    rfl
  · rw [List.map_map]
    exact List.map_id'' (fun nd => rfl) nodes

/-- **C6, witness**: nodes `["a", "b"]` with the single internal edge
`("a", "b")`; the seed set is `["a"]` and both nodes receive a level. -/
theorem claim_C6_amended_witness :
    seedsOf ["a", "b"] (buildInc (incInit ["a", "b"]) [("a", "b")])
        = List.filter (fun n => (List.map Prod.snd [("a", "b")]).count n == 0) ["a", "b"] ∧
    ∃ L, nodeLevels ["a", "b"] [("a", "b")] = some L ∧ L.map Prod.fst = ["a", "b"] :=
  claim_C6_amended ["a", "b"] [("a", "b")] (by decide) (by decide)

/-! ## Cycle lemmas for C7 -/

theorem cycleChain_srcs (first : String) :
    ∀ (ys : List String) (cur : String),
    (cycleChain first cur ys).map Prod.fst = cur :: ys := by
  intro ys
  induction ys with
  | nil => intro cur; rfl
  | cons y t ih =>
    intro cur
    simp only [cycleChain, List.map_cons]
    rw [ih y]

theorem cycleChain_tgts (first : String) :
    ∀ (ys : List String) (cur : String),
    (cycleChain first cur ys).map Prod.snd = ys ++ [first] := by
  intro ys
  induction ys with
  | nil => intro cur; rfl
  | cons y t ih =>
    intro cur
    simp only [cycleChain, List.map_cons]
    rw [ih y]
    rfl

theorem cycleChain_length (first : String) (ys : List String) (cur : String) :
    (cycleChain first cur ys).length = ys.length + 1 := by
  have := congrArg List.length (cycleChain_srcs first ys cur)
  simpa using this

theorem filter_src_eq_nil (es : List (String × String)) (k : String)
    (h : k ∉ es.map Prod.fst) : es.filter (fun e => e.1 == k) = [] := by
  rw [List.filter_eq_nil_iff]
  intro e he
  simp only [beq_iff_eq]
  rintro rfl
  exact h (List.mem_map.mpr ⟨e, he, rfl⟩)

theorem cycleChain_filter_head (first : String) :
    ∀ (ys : List String) (cur : String), cur ∉ ys →
    (cycleChain first cur ys).filter (fun e => e.1 == cur)
      = [(cur, ys.headD first)] := by
  intro ys cur hcur
  cases ys with
  | nil =>
    simp [cycleChain, List.filter]
  | cons y t =>
    simp only [cycleChain, List.filter_cons]
    rw [if_pos (by simp), filter_src_eq_nil _ _ (by
      rw [cycleChain_srcs]
      simpa using hcur)]
    rfl

theorem cycleChain_filter_in (first : String) :
    ∀ (p : List String) (x : String) (xs : List String) (cur : String) (q : List String),
    x :: xs = p ++ cur :: q → (x :: xs).Nodup →
    (cycleChain first x xs).filter (fun e => e.1 == cur) = [(cur, q.headD first)] := by
  intro p
  induction p with
  | nil =>
    intro x xs cur q heq hnd
    simp only [List.nil_append, List.cons.injEq] at heq
    obtain ⟨rfl, rfl⟩ := heq
    exact cycleChain_filter_head first xs x (List.nodup_cons.mp hnd).1
  | cons a p' ih =>
    intro x xs cur q heq hnd
    simp only [List.cons_append, List.cons.injEq] at heq
    obtain ⟨rfl, hxs⟩ := heq
    subst hxs
    have hcur_mem : cur ∈ p' ++ cur :: q :=
      List.mem_append.mpr (Or.inr (List.mem_cons_self _ _))
    have hane : ¬ x = cur := by
      have hnotin := (List.nodup_cons.mp hnd).1
      rintro rfl
      exact hnotin hcur_mem
    cases p' with
    | nil =>
      simp only [List.nil_append] at hnd ⊢
      simp only [cycleChain, List.filter_cons]
      rw [if_neg (by simp only [beq_iff_eq]; exact fun hh => hane hh)]
      exact cycleChain_filter_head first q cur (List.nodup_cons.mp (List.nodup_cons.mp hnd).2).1
    | cons z p'' =>
      simp only [List.cons_append] at hnd ⊢
      simp only [cycleChain, List.filter_cons]
      rw [if_neg (by simp only [beq_iff_eq]; exact fun hh => hane hh)]
      exact ih z (p'' ++ cur :: q) cur q rfl (List.nodup_cons.mp hnd).2

theorem keysOf_enumFrom : ∀ (l : List String) (i : Nat), keysOf (enumFrom i l) = l := by
  intro l
  induction l with
  | nil => intro i; rfl
  | cons x xs ih =>
    intro i
    simp only [enumFrom, keysOf, List.map_cons]
    rw [show (enumFrom (i + 1) xs).map Prod.fst = xs from ih (i + 1)]

theorem enumFrom_append : ∀ (l : List String) (i : Nat) (k : String),
    enumFrom i (l ++ [k]) = enumFrom i l ++ [(k, i + l.length)] := by
  intro l
  induction l with
  | nil => intro i k; simp [enumFrom]
  | cons x xs ih =>
    intro i k
    simp only [List.cons_append, enumFrom, List.append_eq, ih, List.length_cons]
    rw [show i + 1 + xs.length = i + (xs.length + 1) from by omega]

theorem setA_enumFrom (i : Nat) (l : List String) (k : String) (v : Nat) (h : k ∉ l) :
    setA (enumFrom i l) k v = enumFrom i l ++ [(k, v)] :=
  setA_append_of_not_mem _ _ _ (by rw [keysOf_enumFrom]; exact h)

theorem bfs_cycle_walk (adj : List (String × List String)) (c : List String) (hd : String)
    (hhd : c.head? = some hd) (hnd : c.Nodup)
    (hadj : ∀ pre cur post, c = pre ++ cur :: post → getA adj cur = some [post.headD hd]) :
    ∀ (post pre : List String) (cur : String) (fuel : Nat),
    c = pre ++ cur :: post → post.length + 2 ≤ fuel →
    bfsF fuel adj [(cur, pre.length)] pre.reverse (enumFrom 0 pre)
      = some (enumFrom 0 c) := by
  intro post
  induction post with
  | nil =>
    intro pre cur fuel hc hfuel
    obtain ⟨f, rfl⟩ : ∃ f, fuel = f + 1 + 1 := ⟨fuel - 2, by omega⟩
    have hvndup : cur ∉ pre := by
      intro hmem
      have hnd2 := hc ▸ hnd
      exact (List.disjoint_of_nodup_append hnd2) hmem (List.mem_cons_self _ _)
    have hcont : ¬ (pre.reverse.contains cur = true) := fun h =>
      hvndup (by simpa using List.elem_iff.mp h)
    simp only [bfsF]
    rw [if_neg hcont]
    rw [hadj pre cur [] hc]
    show bfsF (f + 1) adj ([] ++ [hd].map (fun ch => (ch, pre.length + 1)))
      (cur :: pre.reverse) (setA (enumFrom 0 pre) cur pre.length) = some (enumFrom 0 c)
    rw [setA_enumFrom 0 pre cur pre.length hvndup]
    have hhd_mem : hd ∈ cur :: pre.reverse := by
      cases pre with
      | nil =>
        rw [hc] at hhd
        simp only [List.nil_append, List.head?_cons, Option.some.injEq] at hhd
        subst hhd
        exact List.mem_cons_self _ _
      | cons p0 pt =>
        rw [hc] at hhd
        simp only [List.cons_append, List.head?_cons, Option.some.injEq] at hhd
        subst hhd
        exact List.mem_cons_of_mem _ (by simp)
    simp only [List.nil_append, List.map_cons, List.map_nil, bfsF]
    rw [if_pos (List.elem_iff.mpr hhd_mem)]
    have henum : enumFrom 0 pre ++ [(cur, pre.length)] = enumFrom 0 (pre ++ [cur]) := by
      rw [enumFrom_append]
      simp
    rw [henum, hc]
  | cons y post' ih =>
    intro pre cur fuel hc hfuel
    obtain ⟨f, rfl⟩ : ∃ f, fuel = f + 1 := ⟨fuel - 1, by omega⟩
    have hvndup : cur ∉ pre := by
      intro hmem
      have hnd2 := hc ▸ hnd
      exact (List.disjoint_of_nodup_append hnd2) hmem (List.mem_cons_self _ _)
    have hcont : ¬ (pre.reverse.contains cur = true) := fun h =>
      hvndup (by simpa using List.elem_iff.mp h)
    simp only [bfsF]
    rw [if_neg hcont]
    rw [hadj pre cur (y :: post') hc]
    show bfsF f adj ([] ++ [(y :: post').headD hd].map (fun ch => (ch, pre.length + 1)))
      (cur :: pre.reverse) (setA (enumFrom 0 pre) cur pre.length) = some (enumFrom 0 c)
    rw [setA_enumFrom 0 pre cur pre.length hvndup]
    have henum : enumFrom 0 pre ++ [(cur, pre.length)] = enumFrom 0 (pre ++ [cur]) := by
      rw [enumFrom_append]
      simp
    have hvis : (cur :: pre.reverse : List String) = (pre ++ [cur]).reverse := by
      simp
    have hq : ([] ++ [(y :: post').headD hd].map (fun ch => (ch, pre.length + 1))
        : List (String × Nat)) = [(y, (pre ++ [cur]).length)] := by
      simp [List.headD]
    rw [henum, hvis, hq]
    exact ih (pre ++ [cur]) y f
      (by rw [hc, List.append_assoc]; rfl)
      (by simp only [List.length_cons] at hfuel ⊢; omega)

/-- **C7.**  For every graph that is a single cycle (nodes `c`, edges closing
the walk `c₀ → c₁ → … → c₀`, so every node has in-degree exactly 1 and the
zero-in-degree seed set is empty): the `// Fallback for loops` seeds the
first node, the breadth-first loop terminates (the embedding is a total
function and the fuel is not exhausted), and each node is assigned a level
exactly once — the final level record's keys are exactly `c`, each node
appearing once, in walk order. -/
theorem claim_C7 (c : List String) (hne : c ≠ []) (hnd : c.Nodup) :
    ∃ L, computeLevels c (cycleEdges c) = some L ∧ L.map Prod.fst = c := by
  obtain ⟨x, xs, rfl⟩ : ∃ x xs, c = x :: xs := by
    cases c with
    | nil => exact absurd rfl hne
    | cons x xs => exact ⟨x, xs, rfl⟩
  have hkeys_base : ∀ k, getA (adjInit (x :: xs)) k
      = if k ∈ x :: xs then some [] else none := by
    intro k
    unfold adjInit
    rw [getA_foldl_const]
    by_cases h : k ∈ x :: xs <;> simp [h, getA]
  have hcyc : cycleEdges (x :: xs) = cycleChain x x xs := rfl
  have hsrc : ∀ e ∈ cycleEdges (x :: xs), e.1 ∈ keysOf (adjInit (x :: xs)) := by
    intro e he
    rw [← getA_isSome_iff, hkeys_base, if_pos ?hmem]
    · rfl
    case hmem =>
      have : e.1 ∈ (cycleEdges (x :: xs)).map Prod.fst := List.mem_map.mpr ⟨e, he, rfl⟩
      rw [hcyc, cycleChain_srcs] at this
      exact this
  obtain ⟨adj, hadj, hchar⟩ := buildAdj_sound (cycleEdges (x :: xs)) (adjInit (x :: xs)) hsrc
  have hadj_succ : ∀ pre cur post, (x :: xs : List String) = pre ++ cur :: post →
      getA adj cur = some [post.headD x] := by
    intro pre cur post heq
    have hcur_mem : cur ∈ (x :: xs : List String) := by
      rw [heq]
      exact List.mem_append.mpr (Or.inr (List.mem_cons_self _ _))
    rw [hchar, hkeys_base, if_pos hcur_mem]
    simp only [Option.map_some', List.nil_append]
    rw [hcyc, cycleChain_filter_in x pre x xs cur post heq hnd]
    rfl
  have hinc : ∀ n ∈ (x :: xs : List String),
      getA (buildInc (incInit (x :: xs)) (cycleEdges (x :: xs))) n = some 1 := by
    intro n hn
    have hbase : getA (incInit (x :: xs)) n = some 0 := by
      unfold incInit
      rw [getA_foldl_const]
      simp [hn]
    rw [buildInc_getA _ _ _ (by simp [hbase]), hbase]
    have htgts : (cycleEdges (x :: xs)).map Prod.snd = xs ++ [x] := by
      rw [hcyc, cycleChain_tgts]
    rw [htgts]
    have hcount : (xs ++ [x]).count n = 1 := by
      rw [List.count_append]
      rcases List.mem_cons.mp hn with h | h
      · subst h
        have hxnot : n ∉ xs := (List.nodup_cons.mp hnd).1
        rw [List.count_eq_zero.mpr hxnot]
        simp
      · have hone : xs.count n = 1 :=
          List.count_eq_one_of_mem (List.nodup_cons.mp hnd).2 h
        have hnx : n ≠ x := by
          rintro rfl
          exact (List.nodup_cons.mp hnd).1 h
        rw [hone, List.count_singleton']
        rw [if_neg (fun hh => hnx hh.symm)]
    rw [hcount]
    rfl
  have hseeds : seedsOf (x :: xs) (buildInc (incInit (x :: xs)) (cycleEdges (x :: xs)))
      = [] := by
    unfold seedsOf
    rw [List.filter_eq_nil_iff]
    intro n hn
    rw [hinc n hn]
    simp
  have hq : initQueue (x :: xs)
      (seedsOf (x :: xs) (buildInc (incInit (x :: xs)) (cycleEdges (x :: xs))))
      = [(x, 0)] := by
    unfold initQueue
    rw [hseeds]
    rfl
  have hfuelbound : xs.length + 2 ≤ levelFuel (x :: xs) (cycleEdges (x :: xs)) := by
    unfold levelFuel
    rw [hcyc, cycleChain_length]
    simp only [List.length_cons]
    omega
  have hwalk := bfs_cycle_walk adj (x :: xs) x rfl hnd hadj_succ xs [] x
    (levelFuel (x :: xs) (cycleEdges (x :: xs))) rfl hfuelbound
  refine ⟨enumFrom 0 (x :: xs), ?_, ?_⟩
  · simp only [computeLevels, hadj, hq]
    exact hwalk
  · have := keysOf_enumFrom (x :: xs) 0
    simpa [keysOf] using this

/-- **C7, witness**: the 3-cycle `a → b → c → a` assigns levels
`a ↦ 0, b ↦ 1, c ↦ 2`, each node exactly once. -/
theorem claim_C7_witness :
    ∃ L, computeLevels ["a", "b", "c"] (cycleEdges ["a", "b", "c"]) = some L ∧
      L.map Prod.fst = ["a", "b", "c"] :=
  claim_C7 ["a", "b", "c"] (by decide) (by decide)
